import Mathlib

/-!
Verification of the trafficSIM traffic-grid simulation.

This file gives a shallow embedding, in Lean 4, of the parts of the
repository that the specification's claims are about:

* `src/src/models/vehicle.py`   — `Vehicle` (path computation, movement,
  turn classification, waiting-time accounting);
* `src/src/models/grid.py`      — `Grid` (directional queues, enqueue /
  dequeue of vehicles);
* `src/src/models/traffic_light.py` — `TrafficLight`;
* `src/src/simulation.py`       — the per-tick passes `move_vehicles`,
  `update_vehicles_time`, `remove_vehicles`;
* `src/src/controllers/scheduler.py` — the scheduling strategies.

Conventions used throughout the embedding:

* Python integers are `ℕ`/`ℤ`; Python `%` with a positive modulus is the
  Lean `Int.emod` (both return the least non-negative representative),
  and Python `//` with a positive divisor is `Int.ediv` (both floor).
* Python `float` weights `1` and `1.4` in the path graph are scaled by 5
  to the exact naturals `5` and `7`; Python's exact binary floats make
  identical comparisons on the small sums that occur here.
* Python dicts keyed by position are total functions `Pos → _` (the
  simulation initialises every key up front and never adds keys), except
  for the vehicle's `waiting_times` dict and the schedulers' private
  per-intersection timers, which are association lists because missing
  keys are observable there.
* Python object identity is modelled by a vehicle id field `vid`; the
  `moved_vehicles` set of `Simulation.move_vehicles` is a list of ids.
* A Python method call that can raise an exception relevant to a claim
  is embedded in `Except String`.
-/

namespace TrafficSim

/-- Grid position `(row, col)`, as in the Python `Tuple[int, int]`. -/
abbrev Pos := ℕ × ℕ

/-- Row-major list of all positions of a `rows × cols` grid: the insertion
order of the Python dicts `Grid.intersection_queues` / `Grid.traffic_lights`,
hence the iteration order of every pass. -/
def positions (rows cols : ℕ) : List Pos :=
  (List.range rows).flatMap fun i => (List.range cols).map fun j => (i, j)

/-- Turn classification returned by `Vehicle.get_turn_type`
(the Python strings "straight", "left", "right"). -/
inductive Turn where
  | straight
  | left
  | right
deriving DecidableEq, Repr

/-- Result of `Vehicle.get_next_direction` (the Python strings
"East", "West", "South", "North", "Destination"). -/
inductive Heading where
  | east
  | west
  | south
  | north
  | destination
deriving DecidableEq, Repr

/-! ## The path graph of `Vehicle._calculate_path`

`Vehicle._calculate_path` builds a `networkx` graph over all grid cells
with, for every cell `(i, j)`:

* orthogonal edges `(i,j)–(i+1,j)` and `(i,j)–(i,j+1)` (weight 1) when in
  range, plus their wrap-around versions `(i,j)–((i+1)%rows, j)` and
  `(i,j)–(i,(j+1)%cols)` (weight 1);
* two diagonal edges `(i,j)–((i+1)%rows,(j+1)%cols)` and
  `(i,(j+1)%cols)–((i+1)%rows,j)` (weight 1.4, "for smoother paths"),

and returns `networkx.shortest_path` (weighted Dijkstra) from the current
position to the destination.  Weights are scaled by 5: `5` and `7`.

(`networkx.Graph.add_edge` overwrites the weight when an edge is added
twice; for grids with `rows, cols ≥ 3` — in particular every concrete
instance used below — duplicate additions carry equal weights, so the
list representation of the edge multiset is faithful.)

The wrapped-destination candidates of `_calculate_path`
(`(dest ± rows) % rows`, `(dest ± cols) % cols` in Python arithmetic) are
all equal to `dest` itself whenever `dest` is in range — see
`wrappedDestinations_eq` below — so the candidate paths are nine results
of the identical `shortest_path` call and `np.argmin` selects the first;
`calculate_path` is therefore exactly the weighted shortest path.
-/

/-- The weighted edge list of the path graph (weights scaled by 5). -/
def gridEdges (rows cols : ℕ) : List (Pos × Pos × ℕ) :=
  (List.range rows).flatMap fun i => (List.range cols).flatMap fun j =>
    (if i + 1 < rows then [(((i, j) : Pos), ((i + 1, j) : Pos), 5)] else [])
    ++ (if j + 1 < cols then [(((i, j) : Pos), ((i, j + 1) : Pos), 5)] else [])
    ++ [(((i, j) : Pos), (((i + 1) % rows, j) : Pos), 5),
        (((i, j) : Pos), ((i, (j + 1) % cols) : Pos), 5),
        (((i, j) : Pos), (((i + 1) % rows, (j + 1) % cols) : Pos), 7),
        (((i, (j + 1) % cols) : Pos), (((i + 1) % rows, j) : Pos), 7)]

/-- Undirected adjacency: the weighted neighbours of `u` in an edge list. -/
def neighbors (es : List (Pos × Pos × ℕ)) (u : Pos) : List (Pos × ℕ) :=
  es.filterMap fun e =>
    if e.1 = u then some (e.2.1, e.2.2)
    else if e.2.1 = u then some (e.1, e.2.2) else none

/-- One frontier entry of Dijkstra: a tentative distance together with the
reversed path from the source (head = the entry's vertex). -/
abbrev Entry := ℕ × List Pos

/-- Extract a frontier entry of minimal distance (the first such entry),
returning it and the remaining frontier. -/
def extractMin : List Entry → Option (Entry × List Entry)
  | [] => none
  | e :: rest =>
    match extractMin rest with
    | none => some (e, [])
    | some (m, others) =>
      if e.1 ≤ m.1 then some (e, rest) else some (m, e :: others)

/-- Fuel-bounded weighted Dijkstra over an undirected edge list, returning
the (forward) vertex sequence of a minimum-weight path on success.  This is
the model of `networkx.shortest_path(G, source, target, weight='weight')`. -/
def dijkstra (es : List (Pos × Pos × ℕ)) (dest : Pos) :
    ℕ → List Pos → List Entry → Option (List Pos)
  | 0, _, _ => none
  | fuel + 1, settled, frontier =>
    match extractMin frontier with
    | none => none
    | some ((d, revPath), rest) =>
      match revPath with
      | [] => none
      | u :: _ =>
        if u = dest then some revPath.reverse
        else if u ∈ settled then dijkstra es dest fuel settled rest
        else
          let pushed := (neighbors es u).map fun vw => (d + vw.2, vw.1 :: revPath)
          dijkstra es dest fuel (u :: settled) (rest ++ pushed)

/-- The wrapped destination candidates considered by `_calculate_path`
(Python `%`, i.e. `Int.emod`, on possibly negative values). -/
def wrappedDestinations (dest : Pos) (rows cols : ℕ) : List (ℤ × ℤ) :=
  let r : ℤ := rows
  let c : ℤ := cols
  let d0 : ℤ := dest.1
  let d1 : ℤ := dest.2
  [(d0, (d1 + c) % c), (d0, (d1 - c) % c),
   ((d0 + r) % r, d1), ((d0 - r) % r, d1),
   ((d0 + r) % r, (d1 + c) % c), ((d0 + r) % r, (d1 - c) % c),
   ((d0 - r) % r, (d1 + c) % c), ((d0 - r) % r, (d1 - c) % c)]

/-- Every wrapped destination candidate equals the destination itself when
the destination is in range, so the nine candidate paths of
`_calculate_path` coincide and `np.argmin` returns the first. -/
theorem wrappedDestinations_eq (dest : Pos) (rows cols : ℕ)
    (h1 : dest.1 < rows) (h2 : dest.2 < cols) :
    ∀ p ∈ wrappedDestinations dest rows cols, p = ((dest.1 : ℤ), (dest.2 : ℤ)) := by
  have key : ∀ a n : ℤ, 0 ≤ a → a < n → (a + n) % n = a ∧ (a - n) % n = a := by
    intro a n h0 hn
    have hplus : a + n = a + n * 1 := by ring
    have hminus : a - n = a + n * (-1) := by ring
    constructor
    · rw [hplus, Int.add_mul_emod_self_left, Int.emod_eq_of_lt h0 hn]
    · rw [hminus, Int.add_mul_emod_self_left, Int.emod_eq_of_lt h0 hn]
  have k1 := key (dest.1 : ℤ) (rows : ℤ) (by positivity) (by exact_mod_cast h1)
  have k2 := key (dest.2 : ℤ) (cols : ℤ) (by positivity) (by exact_mod_cast h2)
  intro p hp
  simp only [wrappedDestinations, List.mem_cons, List.not_mem_nil, or_false] at hp
  rcases hp with h | h | h | h | h | h | h | h <;>
    simp [h, k1.1, k1.2, k2.1, k2.2, Prod.ext_iff]

/-- `Vehicle._calculate_path`: the weighted shortest path from `start` to
`dest` in the diagonal-augmented toroidal grid graph (see the section
comment above for why the wrapped-destination candidate selection reduces
to the single initial `shortest_path` call). -/
def calculate_path (start dest : Pos) (dims : Pos) : Option (List Pos) :=
  let es := gridEdges dims.1 dims.2
  dijkstra es dest (dims.1 * dims.2 * (es.length + 1) + 1) [] [(0, [start])]

/-! ## Vehicle (`src/src/models/vehicle.py`) -/

/-- State of a `Vehicle` object.  `vid` models Python object identity
(queues and the `moved_vehicles` set hold references, compared by
identity); the remaining fields are the instance attributes. -/
structure Vehicle where
  vid : ℕ
  pos : Pos                        -- current_pos
  dest : Pos                       -- destination
  gridSize : Pos                   -- grid_size (rows, cols)
  path : List Pos
  idx : ℕ                          -- current_path_index
  steps : ℕ                        -- steps_taken
  distance : ℕ                     -- distance_traveled
  waiting : List (Pos × ℕ)         -- waiting_times (dict as assoc list)
  pathHistory : List (Pos × ℕ)     -- path_history
  lastMove : ℕ                     -- last_move_time
deriving DecidableEq, Repr, Inhabited

/-- Look up a key in an association list (Python dict read). -/
def lookupPos (l : List (Pos × ℕ)) (p : Pos) : Option ℕ :=
  match l with
  | [] => none
  | kv :: rest => if kv.1 = p then some kv.2 else lookupPos rest p

/-- Increment the value at a key of an association list (Python
`d[k] += 1`); leaves the list unchanged when the key is absent (callers
check for presence first, mirroring Python's `KeyError`). -/
def bumpPos (l : List (Pos × ℕ)) (p : Pos) : List (Pos × ℕ) :=
  match l with
  | [] => []
  | kv :: rest => if kv.1 = p then (kv.1, kv.2 + 1) :: rest else kv :: bumpPos rest p

/-- `Vehicle.__init__(start, destination, grid_size)`: computes the path
(`none` models `networkx.NetworkXNoPath` escaping the constructor) and
initialises the counters; `waiting_times = {pos: 0 for pos in path}`. -/
def mkVehicle (vid : ℕ) (start dest : Pos) (gridSize : Pos) : Option Vehicle :=
  (calculate_path start dest gridSize).map fun p =>
    { vid := vid
      pos := start
      dest := dest
      gridSize := gridSize
      path := p
      idx := 0
      steps := 0
      distance := 0
      waiting := p.map fun q => (q, 0)
      pathHistory := []
      lastMove := 0 }

/-- `Vehicle.get_next_position`: the path entry after the current index,
or the current position when none remains. -/
def Vehicle.get_next_position (v : Vehicle) : Pos :=
  if v.idx + 1 < v.path.length then v.path.getD (v.idx + 1) v.pos else v.pos

/-- `Vehicle.move`: advance to the next path entry (no-op at the end of
the path). -/
def Vehicle.move (v : Vehicle) : Vehicle :=
  if v.idx + 1 < v.path.length then
    { v with
      idx := v.idx + 1
      pos := v.path.getD (v.idx + 1) v.pos
      distance := v.distance + 1
      lastMove := v.steps }
  else v

/-- `Vehicle.has_reached_destination`. -/
def Vehicle.has_reached_destination (v : Vehicle) : Bool :=
  v.pos = v.dest

/-- The toroidally normalised delta used by `get_turn_type` and
`get_next_direction`: `(nxt - cur + size//2) % size - size//2` in Python
arithmetic (positive `size`). -/
def wrapDelta (nxt cur : ℕ) (size : ℕ) : ℤ :=
  ((nxt : ℤ) - (cur : ℤ) + (size : ℤ) / 2) % (size : ℤ) - (size : ℤ) / 2

/-- `Vehicle.get_turn_type`: classify the manoeuvre from the current
position and the next two waypoints. -/
def Vehicle.get_turn_type (v : Vehicle) : Turn :=
  if v.path.length ≤ v.idx + 1 then .straight
  else
    let nxt := v.path.getD (v.idx + 1) v.pos
    let dx := wrapDelta nxt.2 v.pos.2 v.gridSize.2
    let dy := wrapDelta nxt.1 v.pos.1 v.gridSize.1
    if v.idx + 2 < v.path.length then
      let nxt2 := v.path.getD (v.idx + 2) v.pos
      let dxn := wrapDelta nxt2.2 nxt.2 v.gridSize.2
      let dyn := wrapDelta nxt2.1 nxt.1 v.gridSize.1
      if dx = 0 ∧ dxn ≠ 0 then
        if (dy > 0 ∧ dxn > 0) ∨ (dy < 0 ∧ dxn < 0) then .right else .left
      else if dy = 0 ∧ dyn ≠ 0 then
        if (dx > 0 ∧ dyn < 0) ∨ (dx < 0 ∧ dyn > 0) then .right else .left
      else .straight
    else .straight

/-- `Vehicle.get_next_direction`: "Destination" when no next waypoint
remains, else the cardinal name of the toroidally-shortest vector to it. -/
def Vehicle.get_next_direction (v : Vehicle) : Heading :=
  if v.path.length ≤ v.idx + 1 then .destination
  else
    let nxt := v.path.getD (v.idx + 1) v.pos
    let dx := wrapDelta nxt.2 v.pos.2 v.gridSize.2
    let dy := wrapDelta nxt.1 v.pos.1 v.gridSize.1
    if dx > 0 then .east
    else if dx < 0 then .west
    else if dy > 0 then .south
    else .north

/-- `Vehicle.update_time`: increments `steps_taken`, then
`waiting_times[current_pos] += 1` (a `KeyError` — modelled as
`Except.error` — when the current position is not a key), then maintains
`path_history` so that its last entry is the current position with its
accumulated waiting time. -/
def Vehicle.update_time (v : Vehicle) : Except String Vehicle :=
  match lookupPos v.waiting v.pos with
  | none => .error "KeyError: waiting_times"
  | some w =>
    let waiting := bumpPos v.waiting v.pos
    let ph :=
      match v.pathHistory.getLast? with
      | none => v.pathHistory ++ [(v.pos, 0)]
      | some e => if e.1 ≠ v.pos then v.pathHistory ++ [(v.pos, 0)] else v.pathHistory
    .ok { v with
          steps := v.steps + 1
          waiting := waiting
          pathHistory := ph.dropLast ++ [(v.pos, w + 1)] }

/-! ## TrafficLight (`src/src/models/traffic_light.py`)

The class defines exactly the methods `switch`, `is_green`, `get_state`
and `update` (a no-op).  It does NOT define `set_state`, although the
`SimpleScheduler`, `DensityBasedScheduler` and `AdaptiveScheduler`
strategies call `light.set_state(...)`; those calls raise
`AttributeError` at run time and are embedded as `Except.error`. -/

/-- The `Direction` enum of `traffic_light.py`. -/
inductive LightDir where
  | horizontal
  | vertical
deriving DecidableEq, Repr

/-- A `TrafficLight`: the single attribute `_green_direction`,
initialised to horizontal. -/
structure TrafficLight where
  greenDirection : LightDir := .horizontal
deriving DecidableEq, Repr

/-- `TrafficLight.switch`. -/
def TrafficLight.switch (l : TrafficLight) : TrafficLight :=
  match l.greenDirection with
  | .horizontal => { greenDirection := .vertical }
  | .vertical => { greenDirection := .horizontal }

/-- `TrafficLight.is_green`. -/
def TrafficLight.is_green (l : TrafficLight) (d : LightDir) : Bool :=
  l.greenDirection = d

/-- `TrafficLight.get_state`. -/
def TrafficLight.get_state (l : TrafficLight) : LightDir :=
  l.greenDirection

/-! ## Grid (`src/src/models/grid.py`) -/

/-- The four direction-queue keys `Grid.NORTH/SOUTH/EAST/WEST`. -/
inductive QDir where
  | north
  | south
  | east
  | west
deriving DecidableEq, Repr

/-- Dict iteration order of an intersection's queues (insertion order in
`Grid.__init__`): North, South, East, West. -/
def qdirs : List QDir := [.north, .south, .east, .west]

/-- The four direction queues of one intersection. -/
structure DirQueues where
  north : List Vehicle := []
  south : List Vehicle := []
  east : List Vehicle := []
  west : List Vehicle := []
deriving DecidableEq, Repr

/-- Read one direction queue (`Grid.get_direction_queue`). -/
def DirQueues.get (q : DirQueues) : QDir → List Vehicle
  | .north => q.north
  | .south => q.south
  | .east => q.east
  | .west => q.west

/-- Replace one direction queue. -/
def DirQueues.set (q : DirQueues) : QDir → List Vehicle → DirQueues
  | .north, l => { q with north := l }
  | .south, l => { q with south := l }
  | .east, l => { q with east := l }
  | .west, l => { q with west := l }

/-- The `Grid`: dimensions, per-position queues and traffic lights.  The
Python dicts have exactly the keys `positions rows cols`; they are
modelled as total functions (reads at other positions never occur in the
embedded passes). -/
structure Grid where
  rows : ℕ
  cols : ℕ
  queues : Pos → DirQueues
  lights : Pos → TrafficLight

/-- `Grid.__init__(rows, cols)`: empty queues, default lights. -/
def Grid.init (rows cols : ℕ) : Grid :=
  { rows := rows
    cols := cols
    queues := fun _ => {}
    lights := fun _ => {} }

/-- Update the queues at one position. -/
def Grid.setQueues (g : Grid) (p : Pos) (dq : DirQueues) : Grid :=
  { g with queues := fun q => if q = p then dq else g.queues q }

/-- `Grid.get_direction_from_positions`: toroidally adjusted delta from
`current` to `next_pos`, collapsed to a primary axis direction.  The
returned pair is `(dx, dy)` with `dx` the column delta; note that the
Python `-self.cols//2` parses as `(-cols)//2` (floor division). -/
def get_direction_from_positions (rows cols : ℕ) (current nxt : Pos) : ℤ × ℤ :=
  let dx0 : ℤ := (nxt.2 : ℤ) - (current.2 : ℤ)
  let dy0 : ℤ := (nxt.1 : ℤ) - (current.1 : ℤ)
  let dx : ℤ :=
    if dx0 > (cols : ℤ) / 2 then dx0 - cols
    else if dx0 < (-(cols : ℤ)) / 2 then dx0 + cols
    else dx0
  let dy : ℤ :=
    if dy0 > (rows : ℤ) / 2 then dy0 - rows
    else if dy0 < (-(rows : ℤ)) / 2 then dy0 + rows
    else dy0
  if |dx| > |dy| then (if dx > 0 then (1, 0) else (-1, 0))
  else (if dy > 0 then (0, 1) else (0, -1))

/-- The queue key selected by the `if/elif` chain shared by
`Grid.add_vehicle` and `Grid.remove_vehicle`: `(0,-1) ↦ NORTH`,
`(0,1) ↦ SOUTH`, `(1,0) ↦ EAST`, `(-1,0) ↦ WEST`
(`get_direction_from_positions` always returns one of these four). -/
def qdirOfDirection (d : ℤ × ℤ) : QDir :=
  if d = (0, -1) then .north
  else if d = (0, 1) then .south
  else if d = (1, 0) then .east
  else .west

/-- The direction queue a vehicle at intersection `position` belongs to,
as computed by `add_vehicle` / `remove_vehicle`. -/
def vehicleQDir (g : Grid) (position : Pos) (v : Vehicle) : QDir :=
  qdirOfDirection (get_direction_from_positions g.rows g.cols position v.get_next_position)

/-- `Grid.add_vehicle(position, vehicle)`: append to the computed
direction queue — but only when the vehicle has not reached its
destination (arrived vehicles are silently dropped). -/
def Grid.add_vehicle (g : Grid) (position : Pos) (v : Vehicle) : Grid :=
  if v.has_reached_destination then g
  else
    let d := vehicleQDir g position v
    let dq := g.queues position
    g.setQueues position (dq.set d (dq.get d ++ [v]))

/-- Remove the first list element with the given vehicle id
(Python `list.remove`, with identity equality). -/
def removeFirstVid (vid : ℕ) : List Vehicle → List Vehicle
  | [] => []
  | v :: rest => if v.vid = vid then rest else v :: removeFirstVid vid rest

/-- `Grid.remove_vehicle(position, vehicle)`: remove the vehicle from the
computed direction queue if present — but only when the vehicle has not
reached its destination (the guard makes the call a no-op for arrived
vehicles). -/
def Grid.remove_vehicle (g : Grid) (position : Pos) (v : Vehicle) : Grid :=
  if v.has_reached_destination then g
  else
    let d := vehicleQDir g position v
    let dq := g.queues position
    if v.vid ∈ (dq.get d).map Vehicle.vid then
      g.setQueues position (dq.set d (removeFirstVid v.vid (dq.get d)))
    else g

/-! ## Movement resolution (`Simulation.move_vehicles`)

The pass is embedded with an observational log: every advance performed
by the tick is recorded as a `MoveRec` at the exact program point where
the source moves the vehicle.  The log does not influence the computation. -/

/-- Which of the two passes of `move_vehicles` advanced a vehicle. -/
inductive PassKind where
  | rightTurn
  | greenPhase
deriving DecidableEq, Repr

/-- One advance performed by `move_vehicles`: the intersection processed,
the direction queue the vehicle was taken from, the vehicle id, its turn
type at that moment, and the pass responsible. -/
structure MoveRec where
  pos : Pos
  dir : QDir
  vid : ℕ
  turn : Turn
  kind : PassKind
deriving DecidableEq, Repr

/-- State threaded through `move_vehicles`: the grid, the
`moved_vehicles` set (as a list of ids) and the move log. -/
abbrev MoveState := Grid × List ℕ × List MoveRec

/-- The loop body of the right-turn pass: skip vehicles already moved
this tick or already at their destination, advance a vehicle whose turn
type is "right" (remove from its queue, move, re-enqueue at the new
position), leave the rest in place. -/
def rightStep (pos : Pos) (d : QDir) (st : MoveState) (v : Vehicle) : MoveState :=
  let (g, moved, log) := st
  if v.vid ∈ moved ∨ v.has_reached_destination then st
  else if v.get_turn_type = .right then
    let g1 := g.remove_vehicle pos v
    let v2 := v.move
    let g2 := g1.add_vehicle v2.pos v2
    (g2, moved ++ [v.vid], log ++ [⟨pos, d, v.vid, .right, .rightTurn⟩])
  else st

/-- The body of the right-turn pass for one direction queue: iterate over
a snapshot (`vehicles_to_process = list(queue)`) and advance every
not-yet-moved, not-arrived vehicle whose turn type is "right". -/
def processRightQueue (pos : Pos) (d : QDir) (st : MoveState) : MoveState :=
  let snapshot := (st.1.queues pos).get d
  snapshot.foldl (rightStep pos d) st

/-- The right-turn pass of one intersection: all four direction queues in
dict order. -/
def processRightPhase (pos : Pos) (st : MoveState) : MoveState :=
  qdirs.foldl (fun st d => processRightQueue pos d st) st

/-- The scan of one green direction queue: Python's
`for vehicle in vehicles_to_process: ... break` — skip moved/arrived
vehicles, advance the first remaining vehicle whose turn type is straight
or left, then stop. -/
def greenScan (pos : Pos) (d : QDir) (g : Grid) (moved : List ℕ) :
    List Vehicle → Grid × List ℕ × Option MoveRec
  | [] => (g, moved, none)
  | v :: rest =>
    if v.vid ∈ moved ∨ v.has_reached_destination then greenScan pos d g moved rest
    else if v.get_turn_type = .straight ∨ v.get_turn_type = .left then
      let g1 := g.remove_vehicle pos v
      let v2 := v.move
      let g2 := g1.add_vehicle v2.pos v2
      (g2, moved ++ [v.vid], some ⟨pos, d, v.vid, v.get_turn_type, .greenPhase⟩)
    else greenScan pos d g moved rest

/-- The two direction queues aligned with the green phase of a light:
`[EAST, WEST]` when horizontal is green, else `[NORTH, SOUTH]`. -/
def greenDirections (light : TrafficLight) : List QDir :=
  if light.is_green .horizontal then [.east, .west] else [.north, .south]

/-- The loop body of the straight/left pass over the green directions:
`if moved_in_green: break` (once an advance is recorded the remaining
green direction is skipped), else scan that direction's queue. -/
def greenStep (pos : Pos) (st : Grid × List ℕ × Option MoveRec) (d : QDir) :
    Grid × List ℕ × Option MoveRec :=
  if st.2.2.isSome then st
  else greenScan pos d st.1 st.2.1 ((st.1.queues pos).get d)

/-- The straight/left pass of one intersection: process the two green
direction queues, stopping after the first advance (`moved_in_green`).
Returns the grid, the moved set and the at-most-one advance performed. -/
def processGreenPhase (pos : Pos) (g : Grid) (moved : List ℕ) :
    Grid × List ℕ × Option MoveRec :=
  (greenDirections (g.lights pos)).foldl (greenStep pos) (g, moved, none)

/-- Processing of one intersection inside `move_vehicles`: the right-turn
pass over all four queues, then the straight/left pass over the green
direction group. -/
def processIntersection (st : MoveState) (pos : Pos) : MoveState :=
  let (g, moved, log) := processRightPhase pos st
  let (g2, moved2, mg) := processGreenPhase pos g moved
  (g2, moved2, log ++ mg.toList)

/-- `Simulation.move_vehicles`: process every intersection in dict
(row-major) order, threading the `moved_vehicles` set. -/
def move_vehicles (g : Grid) : MoveState :=
  (positions g.rows g.cols).foldl processIntersection (g, [], [])

/-- `Simulation.update_vehicles_time`: `update_time` on every vehicle of
every queue (dict order); an `Except.error` models the `KeyError` that
`update_time` raises when a vehicle's position is not a waiting key. -/
def update_vehicles_time (g : Grid) : Except String Grid :=
  (positions g.rows g.cols).foldlM
    (fun g0 pos => do
      let dq := g0.queues pos
      let n ← dq.north.mapM Vehicle.update_time
      let s ← dq.south.mapM Vehicle.update_time
      let e ← dq.east.mapM Vehicle.update_time
      let w ← dq.west.mapM Vehicle.update_time
      pure (g0.setQueues pos ⟨n, s, e, w⟩))
    g

/-- `Simulation.remove_vehicles`: for every intersection and direction,
collect the queued vehicles that have reached their destination and call
`Grid.remove_vehicle` on each. -/
def remove_vehicles (g : Grid) : Grid :=
  (positions g.rows g.cols).foldl
    (fun g0 pos =>
      qdirs.foldl
        (fun g1 d =>
          let toRemove := ((g1.queues pos).get d).filter Vehicle.has_reached_destination
          toRemove.foldl (fun g2 v => g2.remove_vehicle pos v) g1)
        g0)
    g

/-! ## Scheduler strategies (`src/src/controllers/scheduler.py`) -/

/-- The call `light.set_state(direction)` made by the simple, density and
adaptive schedulers.  `TrafficLight` defines no such method, so the call
raises `AttributeError`; it is embedded as the always-failing action. -/
def TrafficLight.set_state (_ : TrafficLight) (_ : LightDir) : Except String TrafficLight :=
  .error "AttributeError: TrafficLight object has no attribute set_state"

/-- Replace the light at one position. -/
def Grid.setLight (g : Grid) (p : Pos) (l : TrafficLight) : Grid :=
  { g with lights := fun q => if q = p then l else g.lights q }

/-- Write a key of an association list, appending when absent. -/
def setPos (l : List (Pos × ℕ)) (p : Pos) (n : ℕ) : List (Pos × ℕ) :=
  match l with
  | [] => [(p, n)]
  | kv :: rest => if kv.1 = p then (p, n) :: rest else kv :: setPos rest p n

/-- `SimpleScheduler.schedule(time_step, grid_state)` with interval `N`:
computes `is_horizontal = (time_step // N) % 2 == 0` and then calls the
non-existent `light.set_state` for every intersection (`grid_state` holds
every grid position, each with its light). -/
def SimpleScheduler.schedule (interval time_step : ℕ) (g : Grid) : Except String Grid :=
  let isHorizontal := (time_step / interval) % 2 = 0
  (positions g.rows g.cols).foldlM
    (fun g0 pos => do
      let light := g0.lights pos
      let light2 ← light.set_state (if isHorizontal then .horizontal else .vertical)
      pure (g0.setLight pos light2))
    g

/-- `DensityBasedScheduler.schedule`: per intersection, initialise the
`current_green_time` entry if missing, increment it, then switch (via the
non-existent `set_state`, hence an `AttributeError`) when the maximum
green time is reached, or when the minimum green time is reached and the
opposing direction-group count exceeds 1.5 times the green one.  Python's
float literal `1.5` is the exact rational `3/2`. -/
def DensityBasedScheduler.schedule (minGreen maxGreen : ℕ)
    (state : List (Pos × ℕ)) (g : Grid) : Except String (List (Pos × ℕ) × Grid) :=
  (positions g.rows g.cols).foldlM
    (fun st pos => do
      let (cgt, g0) := st
      let light := g0.lights pos
      let cgt := if (lookupPos cgt pos).isNone then cgt ++ [(pos, 0)] else cgt
      let dq := g0.queues pos
      let hCount := dq.east.length + dq.west.length
      let vCount := dq.north.length + dq.south.length
      let isHorizontal := light.is_green .horizontal
      let t := (lookupPos cgt pos).getD 0 + 1
      let cgt := setPos cgt pos t
      -- `count > other * 1.5`, scaled by 2 to exact integers: Python's
      -- binary floats compute `other * 1.5` exactly for the list lengths
      -- arising here, so the comparisons agree.
      let shouldSwitch : Bool :=
        if maxGreen ≤ t then true
        else if minGreen ≤ t then
          if isHorizontal then 3 * hCount < 2 * vCount
          else 3 * vCount < 2 * hCount
        else false
      if shouldSwitch then do
        let light2 ← light.set_state (if isHorizontal then .vertical else .horizontal)
        pure (setPos cgt pos 0, (g0.setLight pos light2))
      else pure (cgt, g0))
    (state, g)

/-- The clamped green-time computation `int(ratio * 10)` of
`IndependentScheduler.schedule`, where `ratio = a / b` is a Python float
division: raises `ZeroDivisionError` when `b = 0`, otherwise yields the
integer floor of `10 * a / b` (exact for the machine floats arising from
queue lengths, where `int()` truncation equals the floor). -/
def pyRatioTimes10 (a b : ℕ) : Except String ℕ :=
  if b = 0 then .error "ZeroDivisionError" else .ok ((10 * a) / b)

/-- `IndependentScheduler.schedule`: per intersection, compute
`ratio = current_count / (opposing_count + 1)`, clamp
`int(ratio * 10)` to `[min_green_time, max_green_time]`, increment the
intersection timer and `light.switch()` (which does exist) once the timer
reaches the computed green time. -/
def IndependentScheduler.schedule (minGreen maxGreen : ℕ)
    (timers : List (Pos × ℕ)) (g : Grid) : Except String (List (Pos × ℕ) × Grid) :=
  (positions g.rows g.cols).foldlM
    (fun st pos => do
      let (tm, g0) := st
      let tm := if (lookupPos tm pos).isNone then tm ++ [(pos, 0)] else tm
      let dq := g0.queues pos
      let hCount := dq.east.length + dq.west.length
      let vCount := dq.north.length + dq.south.length
      let light := g0.lights pos
      let ratio10 ←
        match light.get_state with
        | .horizontal => pyRatioTimes10 hCount (vCount + 1)
        | .vertical => pyRatioTimes10 vCount (hCount + 1)
      let greenTime := min (max minGreen ratio10) maxGreen
      let t := (lookupPos tm pos).getD 0 + 1
      let tm := setPos tm pos t
      if greenTime ≤ t then
        pure (setPos tm pos 0, g0.setLight pos (g0.lights pos).switch)
      else pure (tm, g0))
    (timers, g)

/-! ## General helper lemmas -/

/-- A fold whose step never changes the accumulator returns it unchanged. -/
theorem foldl_fixed {α β : Type _} (f : β → α → β) (l : List α) (b : β)
    (h : ∀ b' x, x ∈ l → f b' x = b') : l.foldl f b = b := by
  induction l generalizing b with
  | nil => rfl
  | cons a t ih =>
    rw [List.foldl_cons, h b a (List.mem_cons_self a t)]
    exact ih b fun b' x hx => h b' x (List.mem_cons_of_mem a hx)

/-- A monadic fold over `Except` whose step never fails never fails. -/
theorem foldlM_ok {σ α : Type _} (f : σ → α → Except String σ) (l : List α) (s : σ)
    (h : ∀ s' x, x ∈ l → ∃ t, f s' x = .ok t) : ∃ t, l.foldlM f s = .ok t := by
  induction l generalizing s with
  | nil => exact ⟨s, rfl⟩
  | cons a rest ih =>
    obtain ⟨s1, h1⟩ := h s a (List.mem_cons_self a rest)
    rw [List.foldlM_cons, h1]
    simpa using ih s1 fun s' x hx => h s' x (List.mem_cons_of_mem a hx)

/-! ## C10 — `get_next_direction` and the end of the path -/

/-- C10: `Vehicle.get_next_direction` returns "Destination" exactly when
no next waypoint remains: when the current path index points at (or past)
the last path entry the result is `Destination`; a cardinal direction is
returned only when a next waypoint exists; and whenever a next waypoint
exists the result is a cardinal direction, never `Destination`. -/
theorem next_direction_destination_iff_no_waypoint (v : Vehicle) :
    (v.path.length ≤ v.idx + 1 → v.get_next_direction = .destination) ∧
    (v.get_next_direction ≠ .destination → v.idx + 1 < v.path.length) ∧
    (v.idx + 1 < v.path.length → v.get_next_direction ≠ .destination) := by
  refine ⟨fun h => by simp [Vehicle.get_next_direction, if_pos h], ?_, ?_⟩
  · intro h
    by_contra hlt
    push_neg at hlt
    exact h (by simp [Vehicle.get_next_direction, if_pos hlt])
  · intro h
    simp only [Vehicle.get_next_direction, if_neg (Nat.not_le.mpr h)]
    split_ifs <;> simp

/-- Witness for C10 at a concrete vehicle sitting on the last entry of
its path. -/
theorem next_direction_destination_witness :
    (([((0 : ℕ), (0 : ℕ)), ((0 : ℕ), (1 : ℕ))] : List Pos).length ≤ 1 + 1) ∧
    (Vehicle.get_next_direction
        { vid := 0, pos := (0, 1), dest := (0, 1), gridSize := (3, 3)
          path := [(0, 0), (0, 1)], idx := 1, steps := 0, distance := 1
          waiting := [((0, 0), 0), ((0, 1), 0)], pathHistory := [], lastMove := 0 }
      = .destination) :=
  ⟨by decide,
   (next_direction_destination_iff_no_waypoint
      { vid := 0, pos := (0, 1), dest := (0, 1), gridSize := (3, 3)
        path := [(0, 0), (0, 1)], idx := 1, steps := 0, distance := 1
        waiting := [((0, 0), 0), ((0, 1), 0)], pathHistory := [], lastMove := 0 }).1
     (by decide)⟩

/-! ## C2 — the removal phase removes nothing

`Simulation.remove_vehicles` selects exactly the queued vehicles with
`has_reached_destination()` true and hands each to `Grid.remove_vehicle`
— whose very first line is `if not vehicle.has_reached_destination():`,
so every one of those calls is a no-op.  The removal phase is therefore
the identity on the grid: an arrived vehicle sitting in a queue is never
removed, contradicting both docstrings. -/

/-- `Grid.remove_vehicle` is a no-op on a vehicle that has reached its
destination (the guard skips the whole body). -/
theorem remove_vehicle_arrived (g : Grid) (pos : Pos) (v : Vehicle)
    (h : v.has_reached_destination = true) : g.remove_vehicle pos v = g := by
  simp [Grid.remove_vehicle, h]

/-- C2: `Simulation.remove_vehicles` is the identity on every grid state.
No vehicle — in particular no vehicle whose current position equals its
destination — is ever removed from any direction queue by the removal
phase. -/
theorem remove_vehicles_removes_nothing (g : Grid) : remove_vehicles g = g := by
  unfold remove_vehicles
  refine foldl_fixed _ _ _ ?_
  intro g0 pos _
  refine foldl_fixed _ _ _ ?_
  intro g1 d _
  refine foldl_fixed _ _ _ ?_
  intro g2 v hv
  exact remove_vehicle_arrived _ _ _ (List.of_mem_filter hv)

/-! ## C9 — the independent scheduler never divides by zero -/

/-- Binding a successful `Except` computation just applies the
continuation. -/
theorem ok_bind {α β : Type _} (a : α) (f : α → Except String β) :
    (Except.ok a >>= f) = f a := rfl

/-- Division by a successor denominator always succeeds. -/
theorem pyRatioTimes10_succ_ok (a b : ℕ) :
    pyRatioTimes10 a (b + 1) = .ok ((10 * a) / (b + 1)) := by
  simp [pyRatioTimes10]

/-- A branch between two pure `Except` results always succeeds. -/
theorem ite_pure_ok {α : Type _} (c : Prop) [Decidable c] (a b : α) :
    ∃ t, (if c then (pure a : Except String α) else pure b) = .ok t := by
  by_cases h : c
  · exact ⟨a, by rw [if_pos h]; rfl⟩
  · exact ⟨b, by rw [if_neg h]; rfl⟩

/-- C9: `IndependentScheduler.schedule` completes on every grid state and
timer state: its ratio denominators are `opposing_count + 1`, never zero,
so no `ZeroDivisionError` is raised — in particular at intersections
whose four queues are all empty. -/
theorem independent_scheduler_no_division_by_zero (minG maxG : ℕ)
    (timers : List (Pos × ℕ)) (g : Grid) :
    ∃ r, IndependentScheduler.schedule minG maxG timers g = .ok r := by
  unfold IndependentScheduler.schedule
  refine foldlM_ok _ _ _ ?_
  rintro ⟨tm, g0⟩ pos -
  dsimp only
  cases hls : (g0.lights pos).get_state <;>
    · simp only [hls, pyRatioTimes10_succ_ok, ok_bind]
      exact ite_pure_ok _ _ _

/-! ## C6 — the fixed-interval scheduler crashes on a missing method

`SimpleScheduler.schedule` computes the lockstep phase from
`(time_step // interval) % 2` but then calls `light.set_state(...)`,
a method `TrafficLight` does not define: the pass raises
`AttributeError` at the first intersection instead of setting any light. -/

/-- C6 (code bug): on a fresh 1×1 grid, at any tick, the fixed-interval
scheduling pass raises `AttributeError` (it never completes, and no
light's phase is ever set). -/
theorem simple_scheduler_raises_attribute_error :
    ∀ t : ℕ, SimpleScheduler.schedule 10 t (Grid.init 1 1)
      = .error "AttributeError: TrafficLight object has no attribute set_state" :=
  fun _ => rfl

/-! ## C7 — the density scheduler crashes instead of switching

`DensityBasedScheduler.schedule` computes its switch decision as the
claim describes (minimum green time 5, forced switch at maximum green
time 20, ratio 1.5 in between), but performs the switch through the
non-existent `light.set_state`: the first pass on which the decision says
"switch" raises `AttributeError`, so no light ever changes phase. -/

/-- Repeated density-based scheduling passes on a fresh 1×1 grid with
empty queues (min green 5, max green 20). -/
def densityRun : ℕ → Except String (List (Pos × ℕ) × Grid)
  | 0 => .ok ([], Grid.init 1 1)
  | n + 1 => do
    let (s, g) ← densityRun n
    DensityBasedScheduler.schedule 5 20 s g

/-- C7 (code bug): with all queues empty, the first 19 density-based
passes complete without switching (the light stays horizontal and the
green-time counter reaches 19), and the 20th pass — where the claim says
the light must switch because the maximum green time has elapsed —
raises `AttributeError` instead of switching. -/
theorem density_scheduler_raises_instead_of_switching :
    (densityRun 19).toOption.map
        (fun p => ((p.2.lights (0, 0)).greenDirection, lookupPos p.1 (0, 0)))
      = some (.horizontal, some 19)
    ∧ (densityRun 20).toOption.isNone = true := by
  constructor
  · decide
  · decide

/-! ## C1 — endpoints and adjacency of the computed path

The path graph contains diagonal edges (added "for smoother paths"), so
consecutive path entries need not be orthogonal neighbours: the claim's
4-adjacency fails (counterexample below), while the start/destination
endpoints and 8-adjacency (orthogonal or diagonal, with wrap) hold for
every path the computation returns. -/

/-- Toroidal 4-adjacency: `v` is one of the 4 orthogonal neighbours of
`u` under wrap-around (stated symmetrically). -/
abbrev torAdj4 (rows cols : ℕ) (u v : Pos) : Prop :=
  (v.1 = (u.1 + 1) % rows ∧ v.2 = u.2) ∨ (u.1 = (v.1 + 1) % rows ∧ u.2 = v.2) ∨
  (v.2 = (u.2 + 1) % cols ∧ v.1 = u.1) ∨ (u.2 = (v.2 + 1) % cols ∧ u.1 = v.1)

/-- Toroidal 8-adjacency: an orthogonal or diagonal neighbour under
wrap-around. -/
abbrev torAdj8 (rows cols : ℕ) (u v : Pos) : Prop :=
  torAdj4 rows cols u v ∨
  (v.1 = (u.1 + 1) % rows ∧ v.2 = (u.2 + 1) % cols) ∨
  (u.1 = (v.1 + 1) % rows ∧ u.2 = (v.2 + 1) % cols) ∨
  (v.1 = (u.1 + 1) % rows ∧ u.2 = (v.2 + 1) % cols) ∨
  (u.1 = (v.1 + 1) % rows ∧ v.2 = (u.2 + 1) % cols)

/-- Two positions joined by an entry of an edge list. -/
def edgeAdj (es : List (Pos × Pos × ℕ)) (x y : Pos) : Prop :=
  ∃ e ∈ es, (e.1 = x ∧ e.2.1 = y) ∨ (e.1 = y ∧ e.2.1 = x)

/-- Every edge that `_calculate_path` adds to its graph joins toroidal
8-neighbours: the in-range orthogonal edges, the wrap-around orthogonal
edges, and the two diagonal edges. -/
theorem gridEdges_adj8 (rows cols : ℕ) (e : Pos × Pos × ℕ)
    (he : e ∈ gridEdges rows cols) : torAdj8 rows cols e.1 e.2.1 := by
  simp only [gridEdges, List.mem_flatMap, List.mem_range] at he
  obtain ⟨i, hi, j, hj, hmem⟩ := he
  simp only [List.mem_append, List.mem_cons, List.not_mem_nil, or_false] at hmem
  have hmem' : (i + 1 < rows ∧ e = ((i, j), (i + 1, j), 5)) ∨
      (j + 1 < cols ∧ e = ((i, j), (i, j + 1), 5)) ∨
      e = ((i, j), ((i + 1) % rows, j), 5) ∨
      e = ((i, j), (i, (j + 1) % cols), 5) ∨
      e = ((i, j), ((i + 1) % rows, (j + 1) % cols), 7) ∨
      e = ((i, (j + 1) % cols), ((i + 1) % rows, j), 7) := by
    rcases hmem with h | h
    · rcases h with h | h
      · split_ifs at h with h1
        · simp only [List.mem_singleton] at h
          exact .inl ⟨h1, h⟩
        · simp at h
      · split_ifs at h with h2
        · simp only [List.mem_singleton] at h
          exact .inr (.inl ⟨h2, h⟩)
        · simp at h
    · tauto
  rcases hmem' with ⟨h1, rfl⟩ | ⟨h2, rfl⟩ | rfl | rfl | rfl | rfl
  · exact .inl (.inl ⟨(Nat.mod_eq_of_lt h1).symm, rfl⟩)
  · exact .inl (.inr (.inr (.inl ⟨(Nat.mod_eq_of_lt h2).symm, rfl⟩)))
  · exact .inl (.inl ⟨rfl, rfl⟩)
  · exact .inl (.inr (.inr (.inl ⟨rfl, rfl⟩)))
  · exact .inr (.inl ⟨rfl, rfl⟩)
  · exact .inr (.inr (.inr (.inl ⟨rfl, rfl⟩)))

/-- 8-adjacency is symmetric. -/
theorem torAdj8_symm (rows cols : ℕ) (u v : Pos) (h : torAdj8 rows cols u v) :
    torAdj8 rows cols v u := by
  unfold torAdj8 torAdj4 at h ⊢
  tauto

/-- Edge-list adjacency implies toroidal 8-adjacency for the path graph. -/
theorem edgeAdj_adj8 (rows cols : ℕ) (x y : Pos)
    (h : edgeAdj (gridEdges rows cols) x y) : torAdj8 rows cols x y := by
  obtain ⟨e, he, h1 | h2⟩ := h
  · obtain ⟨rfl, rfl⟩ := h1
    exact gridEdges_adj8 rows cols e he
  · obtain ⟨rfl, rfl⟩ := h2
    exact torAdj8_symm _ _ _ _ (gridEdges_adj8 rows cols e he)

/-- A neighbour produced by `neighbors` is edge-adjacent to the queried
vertex. -/
theorem neighbors_edgeAdj (es : List (Pos × Pos × ℕ)) (u : Pos) (vw : Pos × ℕ)
    (h : vw ∈ neighbors es u) : edgeAdj es u vw.1 := by
  simp only [neighbors, List.mem_filterMap] at h
  obtain ⟨e, he, hf⟩ := h
  by_cases h1 : e.1 = u
  · rw [if_pos h1] at hf
    exact ⟨e, he, .inl ⟨h1, by cases hf; rfl⟩⟩
  · rw [if_neg h1] at hf
    by_cases h2 : e.2.1 = u
    · rw [if_pos h2] at hf
      exact ⟨e, he, .inr ⟨by cases hf; rfl, h2⟩⟩
    · rw [if_neg h2] at hf
      cases hf

/-- The invariant carried by every Dijkstra frontier entry: a non-empty
reversed walk from `start` whose consecutive entries are edge-adjacent. -/
def EntryOk (es : List (Pos × Pos × ℕ)) (start : Pos) (en : Entry) : Prop :=
  en.2 ≠ [] ∧ en.2.getLast? = some start ∧
  List.Chain' (fun a b => edgeAdj es b a) en.2

/-- `extractMin` returns an element of the list and a sublist of it. -/
theorem extractMin_mem (l : List Entry) : ∀ e r, extractMin l = some (e, r) →
    e ∈ l ∧ ∀ x ∈ r, x ∈ l := by
  induction l with
  | nil => intro e r h; cases h
  | cons a t ih =>
    intro e r h
    rw [extractMin] at h
    split at h
    · cases h
      exact ⟨List.mem_cons_self _ _, by intro x hx; cases hx⟩
    · rename_i m others hm
      obtain ⟨hmem, hsub⟩ := ih m others hm
      split at h
      · cases h
        exact ⟨List.mem_cons_self _ _, fun x hx => List.mem_cons_of_mem a hx⟩
      · cases h
        refine ⟨List.mem_cons_of_mem a hmem, ?_⟩
        intro x hx
        rcases List.mem_cons.mp hx with rfl | hx2
        · exact List.mem_cons_self _ _
        · exact List.mem_cons_of_mem a (hsub x hx2)

/-- Path validity invariant of `dijkstra`: whatever path it returns is a
walk in the edge list from `start` (the common origin of all frontier
entries) to `dest`. -/
theorem dijkstra_valid (es : List (Pos × Pos × ℕ)) (start dest : Pos) :
    ∀ (fuel : ℕ) (settled : List Pos) (frontier : List Entry),
      (∀ en ∈ frontier, EntryOk es start en) →
      ∀ p, dijkstra es dest fuel settled frontier = some p →
        p.head? = some start ∧ p.getLast? = some dest ∧
        List.Chain' (edgeAdj es) p := by
  intro fuel
  induction fuel with
  | zero => intro settled frontier _ p hp; cases hp
  | succ n ih =>
    intro settled frontier hok p hp
    rw [dijkstra] at hp
    split at hp
    · cases hp
    · rename_i d revPath rest hex
      obtain ⟨hemem, hesub⟩ := extractMin_mem _ _ _ hex
      have hrestok : ∀ en ∈ rest, EntryOk es start en :=
        fun en hen => hok en (hesub en hen)
      split at hp
      · cases hp
      · rename_i u rtl
        have hu : EntryOk es start (d, u :: rtl) := hok _ hemem
        split at hp
        · rename_i hdest
          cases hp
          refine ⟨?_, ?_, ?_⟩
          · rw [List.head?_reverse]
            exact hu.2.1
          · rw [List.getLast?_reverse, hdest]
            rfl
          · rw [List.chain'_reverse]
            exact hu.2.2
        · split at hp
          · exact ih settled rest hrestok p hp
          · refine ih _ _ ?_ p hp
            intro en hen
            rcases List.mem_append.mp hen with hl | hr
            · exact hrestok en hl
            · simp only [List.mem_map] at hr
              obtain ⟨vw, hvw, rfl⟩ := hr
              refine ⟨by simp, ?_, ?_⟩
              · rw [List.getLast?_cons_cons]
                exact hu.2.1
              · rw [List.chain'_cons]
                exact ⟨neighbors_edgeAdj es u vw hvw, hu.2.2⟩

/-- C1 (amended): every path returned by the vehicle-construction path
computation starts at the start position, ends at the destination, and
every pair of consecutive entries is toroidally adjacent as an orthogonal
OR diagonal neighbour under wrap-around (the path graph deliberately
contains diagonal edges, so plain 4-adjacency does not hold). -/
theorem calculate_path_endpoints_and_adjacent (start dest : Pos) (rows cols : ℕ)
    (p : List Pos) (h : calculate_path start dest (rows, cols) = some p) :
    p.head? = some start ∧ p.getLast? = some dest ∧
    List.Chain' (torAdj8 rows cols) p := by
  have hv := dijkstra_valid (gridEdges rows cols) start dest _ [] [(0, [start])]
    (by
      intro en hen
      rcases List.mem_cons.mp hen with rfl | hcontra
      · exact ⟨by simp, rfl, List.chain'_singleton _⟩
      · cases hcontra)
    p h
  exact ⟨hv.1, hv.2.1,
    List.Chain'.imp (fun a b hadj => edgeAdj_adj8 rows cols a b hadj) hv.2.2⟩

/-- C1 counterexample: for start `(0,0)`, destination `(1,1)` on a 3×3
grid, the computed path is the single diagonal step
`[(0,0), (1,1)]` — its consecutive entries are NOT toroidally 4-adjacent,
refuting the claim that each step moves to one of the 4 orthogonal
neighbours. -/
theorem path_step_not_orthogonal :
    calculate_path (0, 0) (1, 1) (3, 3) = some [(0, 0), (1, 1)] ∧
    ¬ List.Chain' (torAdj4 3 3) [((0, 0) : Pos), (1, 1)] := by
  refine ⟨by decide, fun hchain => ?_⟩
  exact absurd (List.chain'_cons.mp hchain).1 (by decide)

/-- Witness for the amended C1 at the concrete instance
`(0,0) → (1,1)` on a 3×3 grid. -/
theorem calculate_path_valid_witness :
    calculate_path (0, 0) (1, 1) (3, 3) = some [(0, 0), (1, 1)] ∧
    (([(0, 0), (1, 1)] : List Pos).head? = some (0, 0) ∧
     ([(0, 0), (1, 1)] : List Pos).getLast? = some (1, 1) ∧
     List.Chain' (torAdj8 3 3) [((0, 0) : Pos), (1, 1)]) :=
  ⟨by decide, calculate_path_endpoints_and_adjacent (0, 0) (1, 1) 3 3 _ (by decide)⟩

/-! ## C8 — waiting-time accounting

`Simulation.step` calls `update_vehicles_time` immediately after
`move_vehicles`, and `update_vehicles_time` calls `update_time` on every
vehicle of every queue — including the vehicles that just advanced (which
sit re-enqueued at their new intersection).  The claim that vehicles that
moved have no waiting-time counter incremented is therefore false; what
holds is that every vehicle still queued after movement gets the counter
for its current position incremented by exactly one. -/

/-- Binding a failed `Except` computation stays failed. -/
theorem error_bind {α β : Type _} (s : String) (f : α → Except String β) :
    ((Except.error s : Except String α) >>= f) = Except.error s := rfl

/-- Binding a pure `Except` value applies the continuation. -/
theorem pure_bind_except {α β : Type _} (a : α) (f : α → Except String β) :
    ((pure a : Except String α) >>= f) = f a := rfl

/-- `bumpPos` increments exactly the looked-up value. -/
theorem lookup_bump (l : List (Pos × ℕ)) (p : Pos) (w : ℕ)
    (h : lookupPos l p = some w) : lookupPos (bumpPos l p) p = some (w + 1) := by
  induction l with
  | nil => cases h
  | cons kv rest ih =>
    rw [lookupPos] at h
    rw [bumpPos]
    by_cases hk : kv.1 = p
    · rw [if_pos hk] at h
      cases h
      rw [if_pos hk, lookupPos, if_pos hk]
    · rw [if_neg hk] at h
      rw [if_neg hk, lookupPos, if_neg hk]
      exact ih h

/-- What one successful `update_time` call does to a vehicle: the
position is unchanged and the waiting counter keyed by it increases by
one. -/
def WaitBumped (v v' : Vehicle) : Prop :=
  v'.pos = v.pos ∧ ∃ n, lookupPos v.waiting v.pos = some n ∧
    lookupPos v'.waiting v.pos = some (n + 1)

theorem update_time_spec (v v' : Vehicle) (h : v.update_time = .ok v') :
    WaitBumped v v' := by
  unfold Vehicle.update_time at h
  split at h
  · cases h
  · rename_i w hw
    cases h
    exact ⟨rfl, w, hw, lookup_bump _ _ _ hw⟩

/-- A successful `mapM` relates input and output element-wise. -/
theorem mapM_ok_forall2 (f : Vehicle → Except String Vehicle) :
    ∀ (l l' : List Vehicle), l.mapM f = .ok l' →
      List.Forall₂ (fun v v' => f v = .ok v') l l' := by
  intro l
  induction l with
  | nil =>
    intro l' h
    rw [List.mapM_nil] at h
    cases h
    exact List.Forall₂.nil
  | cons a t ih =>
    intro l' h
    rw [List.mapM_cons] at h
    cases hfa : f a with
    | error s => rw [hfa, error_bind] at h; cases h
    | ok b =>
      rw [hfa, ok_bind] at h
      cases hmt : t.mapM f with
      | error s => rw [hmt, error_bind] at h; cases h
      | ok bs =>
        rw [hmt, ok_bind] at h
        cases h
        exact List.Forall₂.cons hfa (ih bs hmt)

/-- Row-major position lists have no duplicates. -/
theorem positions_nodup (rows cols : ℕ) : (positions rows cols).Nodup := by
  have heq : positions rows cols = (List.range rows).product (List.range cols) := by
    simp [positions, List.product]
  rw [heq]
  exact (List.nodup_range rows).product (List.nodup_range cols)

/-- Element-wise successful `update_time` across all four queues. -/
def DQUpdated (dq dq' : DirQueues) : Prop :=
  ∀ d : QDir, List.Forall₂ (fun v v' => v.update_time = .ok v') (dq.get d) (dq'.get d)

/-- Specification of the `update_vehicles_time` fold: every position of
the iteration list gets its queues mapped element-wise through
`update_time`, and positions outside the list are untouched. -/
theorem update_fold_spec :
    ∀ (l : List Pos) (g g' : Grid), l.Nodup →
      (l.foldlM
        (fun g0 pos => do
          let dq := g0.queues pos
          let n ← dq.north.mapM Vehicle.update_time
          let s ← dq.south.mapM Vehicle.update_time
          let e ← dq.east.mapM Vehicle.update_time
          let w ← dq.west.mapM Vehicle.update_time
          pure (g0.setQueues pos ⟨n, s, e, w⟩))
        g) = .ok g' →
      (∀ pos ∈ l, DQUpdated (g.queues pos) (g'.queues pos)) ∧
      (∀ q, q ∉ l → g'.queues q = g.queues q) := by
  intro l
  induction l with
  | nil =>
    intro g g' _ h
    cases h
    constructor
    · intro pos hp
      exact absurd hp (List.not_mem_nil pos)
    · intro q _
      rfl
  | cons pos rest ih =>
    intro g g' hnd h
    rw [List.foldlM_cons] at h
    dsimp only at h
    cases hn : (g.queues pos).north.mapM Vehicle.update_time with
    | error s => rw [hn, error_bind] at h; cases h
    | ok qn =>
      rw [hn, ok_bind] at h
      cases hs : (g.queues pos).south.mapM Vehicle.update_time with
      | error s => rw [hs, error_bind] at h; cases h
      | ok qs =>
        rw [hs, ok_bind] at h
        cases he : (g.queues pos).east.mapM Vehicle.update_time with
        | error s => rw [he, error_bind] at h; cases h
        | ok qe =>
          rw [he, ok_bind] at h
          cases hw : (g.queues pos).west.mapM Vehicle.update_time with
          | error s => rw [hw, error_bind] at h; cases h
          | ok qw =>
            rw [hw, ok_bind, pure_bind_except] at h
            obtain ⟨hin, hout⟩ := ih (g.setQueues pos ⟨qn, qs, qe, qw⟩) g'
              (List.Nodup.of_cons hnd) h
            have hposnotin : pos ∉ rest := (List.nodup_cons.mp hnd).1
            have hg1pos : (g.setQueues pos ⟨qn, qs, qe, qw⟩).queues pos
                = ⟨qn, qs, qe, qw⟩ := by
              simp [Grid.setQueues]
            refine ⟨?_, ?_⟩
            · intro q hq
              rcases List.mem_cons.mp hq with rfl | hq2
              · rw [hout q hposnotin, hg1pos]
                intro d
                cases d
                · exact mapM_ok_forall2 _ _ _ hn
                · exact mapM_ok_forall2 _ _ _ hs
                · exact mapM_ok_forall2 _ _ _ he
                · exact mapM_ok_forall2 _ _ _ hw
              · have hqne : q ≠ pos := fun hqe => hposnotin (hqe ▸ hq2)
                have : (g.setQueues pos ⟨qn, qs, qe, qw⟩).queues q = g.queues q := by
                  simp [Grid.setQueues, hqne]
                exact this ▸ hin q hq2
            · intro q hq
              have hqne : q ≠ pos := fun hqe => hq (hqe ▸ List.mem_cons_self pos rest)
              have hqnr : q ∉ rest := fun hqr => hq (List.mem_cons_of_mem pos hqr)
              rw [hout q hqnr]
              simp [Grid.setQueues, hqne]

/-- C8 (amended): after movement resolution, the per-tick
`update_vehicles_time` pass increments, for EVERY vehicle present in any
direction queue — whether or not it advanced this tick — the waiting-time
counter keyed by its current position by exactly one (and leaves its
position unchanged); vehicles no longer in any queue receive no
increment. -/
theorem update_time_increments_every_queued_vehicle (g g' : Grid)
    (h : update_vehicles_time g = .ok g') :
    ∀ pos ∈ positions g.rows g.cols, ∀ d : QDir,
      List.Forall₂ WaitBumped ((g.queues pos).get d) ((g'.queues pos).get d) := by
  intro pos hpos d
  have hspec := update_fold_spec (positions g.rows g.cols) g g'
    (positions_nodup _ _) h
  exact (hspec.1 pos hpos d).imp fun a b hok => update_time_spec a b hok

/-- The single vehicle of the C8 counterexample: start `(0,0)`,
destination `(0,2)` on a 5×5 grid (its computed path is
`[(0,0), (0,1), (0,2)]`, as the first conjunct of the counterexample
verifies against the constructor). -/
def c8vehicle : Vehicle :=
  { vid := 1, pos := (0, 0), dest := (0, 2), gridSize := (5, 5)
    path := [(0, 0), (0, 1), (0, 2)], idx := 0, steps := 0, distance := 0
    waiting := [((0, 0), 0), ((0, 1), 0), ((0, 2), 0)], pathHistory := []
    lastMove := 0 }

set_option maxRecDepth 10000 in
/-- C8 counterexample: on a fresh 5×5 grid holding the single vehicle
above (exactly as built by the constructor), the tick's movement
resolution advances the vehicle (the move log records precisely its one
straight move out of the East queue of `(0,0)`), and the subsequent
`update_vehicles_time` pass nevertheless increments its waiting counter —
at the new position `(0,1)` it becomes 1 — contradicting the claim that a
vehicle that moved has no waiting-time counter incremented that tick. -/
theorem moved_vehicle_waiting_incremented :
    mkVehicle 1 (0, 0) (0, 2) (5, 5) = some c8vehicle ∧
    (move_vehicles ((Grid.init 5 5).add_vehicle (0, 0) c8vehicle)).2.2
      = [⟨(0, 0), .east, 1, .straight, .greenPhase⟩] ∧
    (update_vehicles_time
        (move_vehicles ((Grid.init 5 5).add_vehicle (0, 0) c8vehicle)).1).toOption.map
        (fun g2 => (g2.queues (0, 1)).east.map fun w => (w.vid, w.pos, lookupPos w.waiting (0, 1)))
      = some [(1, (0, 1), some 1)] := by
  refine ⟨by decide, by decide, by decide⟩

/-- Witness grid for the amended C8: a 1×1 grid with one queued vehicle
whose waiting counter at its position is 3. -/
def c8witnessGrid : Grid :=
  { rows := 1, cols := 1
    queues := fun _ =>
      { north := [{ vid := 2, pos := (0, 0), dest := (0, 0), gridSize := (1, 1)
                    path := [(0, 0)], idx := 0, steps := 7, distance := 0
                    waiting := [((0, 0), 3)], pathHistory := [((0, 0), 3)]
                    lastMove := 0 }] }
    lights := fun _ => {} }

/-- Witness for the amended C8: applying the theorem to the concrete 1×1
grid shows the queued vehicle's waiting counter went from 3 to 4. -/
theorem update_time_increments_witness :
    update_vehicles_time c8witnessGrid
      = .ok ((update_vehicles_time c8witnessGrid).toOption.getD c8witnessGrid) ∧
    (0, 0) ∈ positions 1 1 ∧
    List.Forall₂ WaitBumped ((c8witnessGrid.queues (0, 0)).get .north)
      ((((update_vehicles_time c8witnessGrid).toOption.getD c8witnessGrid).queues (0, 0)).get .north) :=
  ⟨rfl, by decide,
   update_time_increments_every_queued_vehicle c8witnessGrid
     ((update_vehicles_time c8witnessGrid).toOption.getD c8witnessGrid)
     rfl (0, 0) (by decide) .north⟩

/-! ## C3 — movement-capacity invariants of `move_vehicles`

The embedded `move_vehicles` logs each advance (`MoveRec`) at the exact
program point where the source moves a vehicle.  The claim is settled by
showing, for EVERY grid state: every right-pass advance has turn type
"right"; every straight/left advance is a green-phase advance, comes from
a queue of the direction-group aligned with the (unchanged) light at its
intersection, and there is at most one green-phase advance per
intersection per tick. -/

/-- A fold step that preserves a measure preserves it over the list. -/
theorem foldl_measure {σ α τ : Type _} (f : σ → α → σ) (m : σ → τ)
    (h : ∀ s a, m (f s a) = m s) : ∀ (l : List α) (s : σ), m (l.foldl f s) = m s := by
  intro l
  induction l with
  | nil => intro s; rfl
  | cons a t ih => intro s; rw [List.foldl_cons, ih, h]

/-- A fold whose step only appends log records satisfying `Q` appends,
over the whole list, only records satisfying `Q`. -/
theorem foldl_log_grows {σ α : Type _} (f : σ → α → σ) (logOf : σ → List MoveRec)
    (Q : MoveRec → Prop)
    (h : ∀ s a, ∃ ex, logOf (f s a) = logOf s ++ ex ∧ ∀ r ∈ ex, Q r) :
    ∀ (l : List α) (s : σ), ∃ ex, logOf (l.foldl f s) = logOf s ++ ex ∧ ∀ r ∈ ex, Q r := by
  intro l
  induction l with
  | nil =>
    intro s
    exact ⟨[], by simp, by intro r hr; cases hr⟩
  | cons a t ih =>
    intro s
    obtain ⟨ex1, he1, hq1⟩ := h s a
    obtain ⟨ex2, he2, hq2⟩ := ih (f s a)
    refine ⟨ex1 ++ ex2, ?_, ?_⟩
    · rw [List.foldl_cons, he2, he1, List.append_assoc]
    · intro r hr
      rcases List.mem_append.mp hr with h1 | h2
      · exact hq1 r h1
      · exact hq2 r h2

/-- As `foldl_log_grows`, threading an invariant of the fold state that
the per-step log property may depend on. -/
theorem foldl_log_grows_inv {σ α : Type _} (f : σ → α → σ) (logOf : σ → List MoveRec)
    (I : σ → Prop) (Q : MoveRec → Prop)
    (hI : ∀ s a, I s → I (f s a))
    (h : ∀ s a, I s → ∃ ex, logOf (f s a) = logOf s ++ ex ∧ ∀ r ∈ ex, Q r) :
    ∀ (l : List α) (s : σ), I s →
      ∃ ex, logOf (l.foldl f s) = logOf s ++ ex ∧ ∀ r ∈ ex, Q r := by
  intro l
  induction l with
  | nil =>
    intro s _
    exact ⟨[], by simp, by intro r hr; cases hr⟩
  | cons a t ih =>
    intro s hs
    obtain ⟨ex1, he1, hq1⟩ := h s a hs
    obtain ⟨ex2, he2, hq2⟩ := ih (f s a) (hI s a hs)
    refine ⟨ex1 ++ ex2, ?_, ?_⟩
    · rw [List.foldl_cons, he2, he1, List.append_assoc]
    · intro r hr
      rcases List.mem_append.mp hr with h1 | h2
      · exact hq1 r h1
      · exact hq2 r h2

/-- `Grid.add_vehicle` never touches the lights. -/
theorem add_vehicle_lights (g : Grid) (p : Pos) (v : Vehicle) :
    (g.add_vehicle p v).lights = g.lights := by
  unfold Grid.add_vehicle Grid.setQueues
  split <;> rfl

/-- `Grid.remove_vehicle` never touches the lights. -/
theorem remove_vehicle_lights (g : Grid) (p : Pos) (v : Vehicle) :
    (g.remove_vehicle p v).lights = g.lights := by
  unfold Grid.remove_vehicle Grid.setQueues
  split
  · rfl
  · dsimp only
    split <;> rfl

/-- The right-turn pass of one queue never touches the lights. -/
theorem processRightQueue_lights (pos : Pos) (d : QDir) (st : MoveState) :
    (processRightQueue pos d st).1.lights = st.1.lights := by
  unfold processRightQueue
  refine foldl_measure _ (fun st => st.1.lights) ?_ _ st
  rintro ⟨g, moved, log⟩ v
  unfold rightStep
  dsimp only
  split
  · rfl
  · split
    · dsimp only
      rw [add_vehicle_lights, remove_vehicle_lights]
    · rfl

/-- The right-turn pass of one intersection never touches the lights. -/
theorem processRightPhase_lights (pos : Pos) (st : MoveState) :
    (processRightPhase pos st).1.lights = st.1.lights := by
  unfold processRightPhase
  exact foldl_measure _ (fun st => st.1.lights)
    (fun s d => processRightQueue_lights pos d s) _ st

/-- The green scan never touches the lights. -/
theorem greenScan_lights (pos : Pos) (d : QDir) :
    ∀ (l : List Vehicle) (g : Grid) (moved : List ℕ),
      (greenScan pos d g moved l).1.lights = g.lights := by
  intro l
  induction l with
  | nil => intro g moved; rfl
  | cons v rest ih =>
    intro g moved
    rw [greenScan]
    split
    · exact ih g moved
    · split
      · dsimp only
        rw [add_vehicle_lights, remove_vehicle_lights]
      · exact ih g moved

/-- The straight/left pass never touches the lights. -/
theorem processGreenPhase_lights (pos : Pos) (g : Grid) (moved : List ℕ) :
    (processGreenPhase pos g moved).1.lights = g.lights := by
  unfold processGreenPhase
  refine foldl_measure _ (fun st : Grid × List ℕ × Option MoveRec => st.1.lights) ?_ _ _
  rintro ⟨g0, m0, mg⟩ d
  unfold greenStep
  dsimp only
  split
  · rfl
  · exact greenScan_lights pos d _ g0 m0

/-- Processing one intersection never touches the lights. -/
theorem processIntersection_lights (st : MoveState) (pos : Pos) :
    (processIntersection st pos).1.lights = st.1.lights := by
  unfold processIntersection
  rcases hrp : processRightPhase pos st with ⟨g1, m1, log1⟩
  dsimp only
  rcases hgp : processGreenPhase pos g1 m1 with ⟨g2, m2, mg⟩
  dsimp only
  have h1 : g1.lights = st.1.lights := by
    have h := processRightPhase_lights pos st
    rw [hrp] at h
    exact h
  have h2 : g2.lights = g1.lights := by
    have h := processGreenPhase_lights pos g1 m1
    rw [hgp] at h
    exact h
  rw [h2, h1]

/-- `move_vehicles` never touches the lights: the light phases read
during the tick are those of the input grid. -/
theorem move_vehicles_lights (g : Grid) : (move_vehicles g).1.lights = g.lights := by
  unfold move_vehicles
  exact foldl_measure _ (fun st : MoveState => st.1.lights)
    (fun s pos => processIntersection_lights s pos) _ _

/-- Every advance of the green scan is recorded as a green-phase record
of the scanned queue with a straight-or-left turn type. -/
theorem greenScan_rec (pos : Pos) (d : QDir) :
    ∀ (l : List Vehicle) (g : Grid) (moved : List ℕ) (r : MoveRec),
      (greenScan pos d g moved l).2.2 = some r →
      r.pos = pos ∧ r.dir = d ∧ r.kind = .greenPhase ∧
        (r.turn = .straight ∨ r.turn = .left) := by
  intro l
  induction l with
  | nil => intro g moved r h; cases h
  | cons v rest ih =>
    intro g moved r h
    rw [greenScan] at h
    split at h
    · exact ih _ _ _ h
    · split at h
      · rename_i hturn
        cases h
        exact ⟨rfl, rfl, rfl, hturn⟩
      · exact ih _ _ _ h

/-- Folding the green scan over a list of directions: any recorded
advance either was already recorded or is a green-phase advance from one
of those directions. -/
theorem greenFold_rec (pos : Pos) :
    ∀ (dirs : List QDir) (st : Grid × List ℕ × Option MoveRec) (r : MoveRec),
      ((dirs.foldl (greenStep pos) st).2.2 = some r) →
      st.2.2 = some r ∨ (r.pos = pos ∧ r.kind = .greenPhase ∧
        (r.turn = .straight ∨ r.turn = .left) ∧ r.dir ∈ dirs) := by
  intro dirs
  induction dirs with
  | nil => intro st r h; exact .inl h
  | cons d rest ih =>
    intro st r h
    rw [List.foldl_cons] at h
    rcases ih _ r h with h1 | h2
    · unfold greenStep at h1
      by_cases hs : st.2.2.isSome
      · rw [if_pos hs] at h1
        exact .inl h1
      · rw [if_neg hs] at h1
        obtain ⟨hp, hd, hk, ht⟩ := greenScan_rec pos d _ _ _ r h1
        exact .inr ⟨hp, hk, ht, by rw [hd]; exact List.mem_cons_self _ _⟩
    · exact .inr ⟨h2.1, h2.2.1, h2.2.2.1, List.mem_cons_of_mem _ h2.2.2.2⟩

/-- The straight/left pass of one intersection: any advance it records is
a green-phase advance from a queue of the green direction-group of that
intersection's light. -/
theorem processGreenPhase_rec (pos : Pos) (g : Grid) (moved : List ℕ) (r : MoveRec)
    (h : (processGreenPhase pos g moved).2.2 = some r) :
    r.pos = pos ∧ r.kind = .greenPhase ∧ (r.turn = .straight ∨ r.turn = .left) ∧
      r.dir ∈ greenDirections (g.lights pos) := by
  unfold processGreenPhase at h
  rcases greenFold_rec pos (greenDirections (g.lights pos)) (g, moved, none) r h with h1 | h2
  · cases h1
  · exact h2

/-- The right-turn pass of one queue appends only right-turn records of
that intersection and queue. -/
theorem processRightQueue_log (pos : Pos) (d : QDir) (st : MoveState) :
    ∃ ex, (processRightQueue pos d st).2.2 = st.2.2 ++ ex ∧
      ∀ r ∈ ex, r.pos = pos ∧ r.dir = d ∧ r.kind = .rightTurn ∧ r.turn = .right := by
  unfold processRightQueue
  refine foldl_log_grows _ (fun st => st.2.2) _ ?_ _ st
  rintro ⟨g, moved, log⟩ v
  unfold rightStep
  dsimp only
  split
  · exact ⟨[], by simp, by intro r hr; cases hr⟩
  · split
    · exact ⟨[⟨pos, d, v.vid, .right, .rightTurn⟩], rfl,
        by intro r hr; rcases List.mem_singleton.mp hr with rfl; exact ⟨rfl, rfl, rfl, rfl⟩⟩
    · exact ⟨[], by simp, by intro r hr; cases hr⟩

/-- The right-turn pass of one intersection appends only right-turn
records of that intersection. -/
theorem processRightPhase_log (pos : Pos) (st : MoveState) :
    ∃ ex, (processRightPhase pos st).2.2 = st.2.2 ++ ex ∧
      ∀ r ∈ ex, r.pos = pos ∧ r.kind = .rightTurn ∧ r.turn = .right := by
  unfold processRightPhase
  refine foldl_log_grows _ (fun st => st.2.2) _ ?_ _ st
  intro s d
  obtain ⟨ex, he, hq⟩ := processRightQueue_log pos d s
  exact ⟨ex, he, fun r hr => ⟨(hq r hr).1, (hq r hr).2.2.1, (hq r hr).2.2.2⟩⟩

/-- The per-record property of C3, relative to the (unchanged) lights of
the input grid `g`: right-pass advances have turn type "right", and
green-phase advances are straight-or-left advances out of a queue of the
direction-group aligned with the green phase at their intersection. -/
def RecOk (g : Grid) (r : MoveRec) : Prop :=
  (r.kind = .rightTurn → r.turn = .right) ∧
  (r.kind = .greenPhase → (r.turn = .straight ∨ r.turn = .left) ∧
    r.dir ∈ greenDirections (g.lights r.pos))

/-- Processing one intersection appends only `RecOk` records (given the
state's lights agree with the input grid's). -/
theorem processIntersection_log (g : Grid) (st : MoveState) (pos : Pos)
    (hI : st.1.lights = g.lights) :
    ∃ ex, (processIntersection st pos).2.2 = st.2.2 ++ ex ∧
      ∀ r ∈ ex, RecOk g r ∧ r.pos = pos := by
  unfold processIntersection
  rcases hrp : processRightPhase pos st with ⟨g1, m1, log1⟩
  dsimp only
  rcases hgp : processGreenPhase pos g1 m1 with ⟨g2, m2, mg⟩
  dsimp only
  obtain ⟨exR, heR, hqR⟩ := processRightPhase_log pos st
  rw [hrp] at heR
  dsimp only at heR
  have hg1lights : g1.lights = g.lights := by
    have h1 := processRightPhase_lights pos st
    rw [hrp] at h1
    exact h1.trans hI
  refine ⟨exR ++ mg.toList, by rw [heR, List.append_assoc], ?_⟩
  intro r hr
  rcases List.mem_append.mp hr with h1 | h2
  · obtain ⟨hp, hk, ht⟩ := hqR r h1
    refine ⟨⟨fun _ => ht, fun hgreen => ?_⟩, hp⟩
    rw [hk] at hgreen
    cases hgreen
  · have hmg : mg = some r := by
      cases mg with
      | none => cases h2
      | some r0 => rcases List.mem_singleton.mp h2 with rfl; rfl
    have := processGreenPhase_rec pos g1 m1 r (by rw [hgp, hmg])
    obtain ⟨hp, hk, ht, hd⟩ := this
    refine ⟨⟨fun hright => ?_, fun _ => ⟨ht, ?_⟩⟩, hp⟩
    · rw [hk] at hright
      cases hright
    · rw [hp, ← hg1lights]
      exact hd

/-- Count of green-phase advance records at a given intersection. -/
def countGreen (log : List MoveRec) (p : Pos) : ℕ :=
  log.countP fun r => r.kind == PassKind.greenPhase && r.pos == p

/-- `countGreen` distributes over append. -/
theorem countGreen_append (l1 l2 : List MoveRec) (p : Pos) :
    countGreen (l1 ++ l2) p = countGreen l1 p + countGreen l2 p := by
  unfold countGreen
  exact List.countP_append _ _ _

/-- Processing one intersection adds at most one green-phase record, and
only at that intersection. -/
theorem processIntersection_countGreen (st : MoveState) (pos p : Pos) :
    countGreen (processIntersection st pos).2.2 p
      ≤ countGreen st.2.2 p + (if p = pos then 1 else 0) := by
  unfold processIntersection
  rcases hrp : processRightPhase pos st with ⟨g1, m1, log1⟩
  dsimp only
  rcases hgp : processGreenPhase pos g1 m1 with ⟨g2, m2, mg⟩
  dsimp only
  obtain ⟨exR, heR, hqR⟩ := processRightPhase_log pos st
  rw [hrp] at heR
  dsimp only at heR
  rw [heR, countGreen_append, countGreen_append]
  have hR0 : countGreen exR p = 0 := by
    unfold countGreen
    rw [List.countP_eq_zero]
    intro r hr
    have := (hqR r hr).2.1
    simp [this]
  have hmg : countGreen mg.toList p ≤ (if p = pos then 1 else 0) := by
    cases mg with
    | none => simp [countGreen]
    | some r =>
      have hrp2 := processGreenPhase_rec pos g1 m1 r (by rw [hgp])
      by_cases hp : p = pos
      · rw [if_pos hp]
        exact le_trans (List.countP_le_length _) (by simp)
      · rw [if_neg hp, Option.toList_some, Nat.le_zero]
        unfold countGreen
        rw [List.countP_eq_zero]
        intro r0 hr0
        rcases List.mem_singleton.mp hr0 with rfl
        have hps : r0.pos = pos := hrp2.1
        simp only [Bool.and_eq_true, beq_iff_eq]
        intro hc
        apply hp
        rw [← hc.2, hps]
  omega

/-- Folding over a duplicate-free list of positions yields at most one
green-phase record per position. -/
theorem move_fold_countGreen :
    ∀ (l : List Pos), l.Nodup → ∀ (st : MoveState) (p : Pos),
      countGreen ((l.foldl processIntersection st).2.2) p
        ≤ countGreen st.2.2 p + (if p ∈ l then 1 else 0) := by
  intro l
  induction l with
  | nil =>
    intro _ st p
    simp
  | cons a t ih =>
    intro hnd st p
    rw [List.foldl_cons]
    have hstep := processIntersection_countGreen st a p
    have hrest := ih (List.Nodup.of_cons hnd) (processIntersection st a) p
    by_cases hpa : p = a
    · have hpt : p ∉ t := by rw [hpa]; exact (List.nodup_cons.mp hnd).1
      rw [if_pos (by rw [hpa]; exact List.mem_cons_self a t)]
      rw [if_neg hpt] at hrest
      rw [if_pos hpa] at hstep
      omega
    · rw [if_neg hpa] at hstep
      by_cases hpt : p ∈ t
      · rw [if_pos hpt] at hrest
        rw [if_pos (List.mem_cons_of_mem a hpt)]
        omega
      · rw [if_neg hpt] at hrest
        rw [if_neg (by
          intro hmem
          rcases List.mem_cons.mp hmem with h1 | h2
          · exact hpa h1
          · exact hpt h2)]
        omega

/-- C3: in one tick of `move_vehicles`, every advance performed by the
right-turn pass has turn type "right"; every straight-or-left advance is
performed by the straight/left pass, comes from a queue of the
direction-group aligned with the currently green phase of its
intersection's light, and at most one such advance happens per
intersection (hence per green direction-group) per tick; no straight/left
vehicle of the non-green direction-group advances. -/
theorem green_group_capacity (g : Grid) :
    (∀ r ∈ (move_vehicles g).2.2, RecOk g r) ∧
    (∀ p : Pos, countGreen (move_vehicles g).2.2 p ≤ 1) := by
  constructor
  · unfold move_vehicles
    obtain ⟨ex, he, hq⟩ := foldl_log_grows_inv processIntersection (fun st => st.2.2)
      (fun st => st.1.lights = g.lights) (RecOk g)
      (fun s pos hs => by
        show (processIntersection s pos).1.lights = g.lights
        rw [processIntersection_lights]
        exact hs)
      (fun s pos hs => by
        obtain ⟨ex, he, hq⟩ := processIntersection_log g s pos hs
        exact ⟨ex, he, fun r hr => (hq r hr).1⟩)
      (positions g.rows g.cols) (g, [], []) rfl
    intro r hr
    rw [he] at hr
    rw [List.nil_append] at hr
    exact hq r hr
  · intro p
    unfold move_vehicles
    have hcount := move_fold_countGreen (positions g.rows g.cols) (positions_nodup _ _)
      (g, [], []) p
    have h0 : countGreen (((g, [], []) : MoveState)).2.2 p = 0 := rfl
    rw [h0] at hcount
    split at hcount <;> omega

/-- A vehicle (start `(0,0)`, destination `(0,1)`) on a 3×3 grid —
field-for-field what the constructor builds (the witness verifies this
against `mkVehicle`). -/
def demoVehicle : Vehicle :=
  { vid := 7, pos := (0, 0), dest := (0, 1), gridSize := (3, 3)
    path := [(0, 0), (0, 1)], idx := 0, steps := 0, distance := 0
    waiting := [((0, 0), 0), ((0, 1), 0)], pathHistory := [], lastMove := 0 }

/-- The 3×3 demo grid: `demoVehicle` enqueued at its start position. -/
def demoGrid : Grid := (Grid.init 3 3).add_vehicle (0, 0) demoVehicle

set_option maxRecDepth 10000 in
/-- Witness for C3 on the demo grid: the tick performs the concrete
straight advance out of the East queue of `(0,0)` (a green direction
under the default horizontal light), and the theorem applied to that
record and intersection discharges its hypotheses. -/
theorem green_group_capacity_witness :
    mkVehicle 7 (0, 0) (0, 1) (3, 3) = some demoVehicle ∧
    (⟨(0, 0), .east, 7, .straight, .greenPhase⟩ : MoveRec) ∈ (move_vehicles demoGrid).2.2 ∧
    RecOk demoGrid ⟨(0, 0), .east, 7, .straight, .greenPhase⟩ ∧
    countGreen (move_vehicles demoGrid).2.2 (0, 0) ≤ 1 :=
  ⟨by decide, by decide,
   (green_group_capacity demoGrid).1 _ (by decide),
   (green_group_capacity demoGrid).2 (0, 0)⟩

/-! ## C4 / C5 — structural facts about the two passes

These two claims require knowing exactly how the passes transform the
queues of the processed intersection.  They hold under the sanity
conditions that every reachable simulation state satisfies (vehicles sit
at their queue's intersection, in the direction queue the grid's own
routing would choose for them, with a next waypoint different from the
intersection, not yet arrived, not yet moved this tick, with globally
distinct identities at the intersection). -/

/-- Reading back the queue just written. -/
theorem DirQueues.get_set_same (dq : DirQueues) (d : QDir) (l : List Vehicle) :
    (dq.set d l).get d = l := by
  cases d <;> rfl

/-- Writing one direction leaves the others unchanged. -/
theorem DirQueues.get_set_ne (dq : DirQueues) (d d2 : QDir) (l : List Vehicle)
    (h : d2 ≠ d) : (dq.set d l).get d2 = dq.get d2 := by
  cases d <;> cases d2 <;> simp_all [DirQueues.set, DirQueues.get]

/-- `setQueues` only changes the written position. -/
theorem setQueues_queues (g : Grid) (p q : Pos) (dq : DirQueues) :
    (g.setQueues p dq).queues q = if q = p then dq else g.queues q := rfl

/-- `add_vehicle` leaves the dimensions unchanged. -/
theorem add_vehicle_dims (g : Grid) (p : Pos) (v : Vehicle) :
    (g.add_vehicle p v).rows = g.rows ∧ (g.add_vehicle p v).cols = g.cols := by
  unfold Grid.add_vehicle Grid.setQueues
  split <;> exact ⟨rfl, rfl⟩

/-- `remove_vehicle` leaves the dimensions unchanged. -/
theorem remove_vehicle_dims (g : Grid) (p : Pos) (v : Vehicle) :
    (g.remove_vehicle p v).rows = g.rows ∧ (g.remove_vehicle p v).cols = g.cols := by
  unfold Grid.remove_vehicle Grid.setQueues
  split
  · exact ⟨rfl, rfl⟩
  · dsimp only
    split <;> exact ⟨rfl, rfl⟩

/-- `add_vehicle` leaves every position other than the written one
unchanged. -/
theorem add_vehicle_queues_other (g : Grid) (p : Pos) (v : Vehicle) (q : Pos)
    (h : q ≠ p) : (g.add_vehicle p v).queues q = g.queues q := by
  unfold Grid.add_vehicle
  split
  · rfl
  · dsimp only
    rw [setQueues_queues, if_neg h]

/-- `remove_vehicle` leaves every position other than the written one
unchanged. -/
theorem remove_vehicle_queues_other (g : Grid) (p : Pos) (v : Vehicle) (q : Pos)
    (h : q ≠ p) : (g.remove_vehicle p v).queues q = g.queues q := by
  unfold Grid.remove_vehicle
  split
  · rfl
  · dsimp only
    split
    · rw [setQueues_queues, if_neg h]
    · rfl

/-- Removing a vehicle id that is absent from the leading block removes
the head of the block that carries it. -/
theorem removeFirstVid_append (vid : ℕ) :
    ∀ (kept : List Vehicle), vid ∉ kept.map Vehicle.vid →
      ∀ (v : Vehicle) (rest : List Vehicle), v.vid = vid →
        removeFirstVid vid (kept ++ v :: rest) = kept ++ rest := by
  intro kept
  induction kept with
  | nil =>
    intro _ v rest hv
    rw [List.nil_append, removeFirstVid, if_pos hv, List.nil_append]
  | cons k t ih =>
    intro hnm v rest hv
    have hk : ¬ k.vid = vid := by
      intro hkv
      apply hnm
      rw [List.map_cons, ← hkv]
      exact List.mem_cons_self _ _
    rw [List.cons_append, removeFirstVid, if_neg hk,
      ih (fun hm => hnm (by rw [List.map_cons]; exact List.mem_cons_of_mem _ hm)) v rest hv,
      List.cons_append]

/-- A sane queued vehicle advances to its next waypoint when moved. -/
theorem move_pos_of_next_ne (v : Vehicle) (h : v.get_next_position ≠ v.pos) :
    (v.move).pos = v.get_next_position ∧ (v.move).vid = v.vid := by
  unfold Vehicle.get_next_position at h
  unfold Vehicle.move Vehicle.get_next_position
  by_cases hlt : v.idx + 1 < v.path.length
  · rw [if_pos hlt] at h ⊢
    rw [if_pos hlt]
    exact ⟨rfl, rfl⟩
  · rw [if_neg hlt] at h
    exact absurd rfl h

/-- Sanity of a vehicle sitting in direction queue `d` of intersection
`pos` (true of every reachable simulation state): it is positioned at the
intersection, has not arrived, its next waypoint is a different
intersection, and it sits in the very direction queue that the grid's
own routing (`get_direction_from_positions`) assigns to it. -/
abbrev VehicleSane (rows cols : ℕ) (pos : Pos) (d : QDir) (v : Vehicle) : Prop :=
  v.pos = pos ∧ v.has_reached_destination = false ∧
  v.get_next_position ≠ pos ∧
  qdirOfDirection (get_direction_from_positions rows cols pos v.get_next_position) = d

/-- All vehicles queued at an intersection, in queue-dict order. -/
def vehiclesAt (g : Grid) (pos : Pos) : List Vehicle :=
  (g.queues pos).north ++ (g.queues pos).south ++ (g.queues pos).east ++ (g.queues pos).west

/-- Is the vehicle's current turn type "right"? -/
def isRight (v : Vehicle) : Bool := v.get_turn_type == Turn.right

/-- What `remove_vehicle` does at the removed vehicle's intersection when
the vehicle is not arrived, is routed to queue `d` and is present there. -/
theorem remove_vehicle_queues_spec (g : Grid) (pos : Pos) (v : Vehicle) (d : QDir)
    (hnr : v.has_reached_destination = false)
    (hdir : vehicleQDir g pos v = d)
    (hmem : v.vid ∈ ((g.queues pos).get d).map Vehicle.vid) :
    (g.remove_vehicle pos v).queues pos
      = (g.queues pos).set d (removeFirstVid v.vid ((g.queues pos).get d)) := by
  unfold Grid.remove_vehicle
  rw [if_neg (by simp [hnr])]
  dsimp only
  rw [hdir, if_pos hmem, setQueues_queues, if_pos rfl]

/-- Single-queue specification of the right-turn pass: starting from a
queue `kept ++ snap` whose processed prefix `kept` has already been kept
in place, folding the loop body over the snapshot `snap` (all of whose
vehicles are sane, unmoved, with globally distinct ids) leaves in that
queue exactly the non-right-turn vehicles in order, leaves the other
queues of the intersection unchanged, and appends exactly the right-turn
vehicles' ids to the moved set. -/
theorem rightQueue_fold_spec (pos : Pos) (d : QDir) :
    ∀ (snap kept : List Vehicle) (g0 : Grid) (moved : List ℕ) (log : List MoveRec),
      (∀ v ∈ snap, VehicleSane g0.rows g0.cols pos d v) →
      (∀ v ∈ snap, v.vid ∉ moved) →
      ((kept ++ snap).map Vehicle.vid).Nodup →
      (g0.queues pos).get d = kept ++ snap →
      (((snap.foldl (rightStep pos d) (g0, moved, log)).1.queues pos).get d
          = kept ++ snap.filter (fun v => ! isRight v)) ∧
      (∀ d2 : QDir, d2 ≠ d →
        ((snap.foldl (rightStep pos d) (g0, moved, log)).1.queues pos).get d2
          = (g0.queues pos).get d2) ∧
      ((snap.foldl (rightStep pos d) (g0, moved, log)).2.1
          = moved ++ (snap.filter isRight).map Vehicle.vid) ∧
      ((snap.foldl (rightStep pos d) (g0, moved, log)).1.rows = g0.rows ∧
       (snap.foldl (rightStep pos d) (g0, moved, log)).1.cols = g0.cols) := by
  intro snap
  induction snap with
  | nil =>
    intro kept g0 moved log _ _ _ hq
    refine ⟨by simpa using hq, fun d2 _ => rfl, by simp, rfl, rfl⟩
  | cons v rest ih =>
    intro kept g0 moved log hsane hmv hnd hq
    have hv := hsane v (List.mem_cons_self _ _)
    obtain ⟨hvpos, hvnr, hvnext, hvdir⟩ := hv
    have hskip : ¬ (v.vid ∈ moved ∨ v.has_reached_destination = true) := by
      simp [hmv v (List.mem_cons_self _ _), hvnr]
    rw [List.foldl_cons]
    by_cases hr : v.get_turn_type = .right
    · -- the vehicle advances: it is removed from queue `d` and
      -- re-enqueued at a different intersection
      have hstep : rightStep pos d (g0, moved, log) v
          = (((g0.remove_vehicle pos v).add_vehicle (v.move).pos v.move),
             moved ++ [v.vid], log ++ [⟨pos, d, v.vid, .right, .rightTurn⟩]) := by
        unfold rightStep
        dsimp only
        rw [if_neg hskip, if_pos hr]
      rw [hstep]
      have hvnext' : v.get_next_position ≠ v.pos := by rw [hvpos]; exact hvnext
      obtain ⟨hmovepos, hmovevid⟩ := move_pos_of_next_ne v hvnext'
      have hg1 : (g0.remove_vehicle pos v).queues pos
          = (g0.queues pos).set d (removeFirstVid v.vid ((g0.queues pos).get d)) := by
        refine remove_vehicle_queues_spec g0 pos v d hvnr hvdir ?_
        rw [hq, List.map_append, List.map_cons]
        exact List.mem_append_right _ (List.mem_cons_self _ _)
      have hremfe : removeFirstVid v.vid ((g0.queues pos).get d) = kept ++ rest := by
        rw [hq]
        refine removeFirstVid_append v.vid kept ?_ v rest rfl
        intro hmemk
        rw [List.map_append] at hnd
        exact absurd (by rw [List.map_cons]; exact List.mem_cons_self _ _)
          ((List.disjoint_of_nodup_append hnd) hmemk)
      have hg2q : ((g0.remove_vehicle pos v).add_vehicle (v.move).pos v.move).queues pos
          = (g0.remove_vehicle pos v).queues pos := by
        refine add_vehicle_queues_other _ _ _ _ ?_
        rw [hmovepos]
        exact fun hc => hvnext hc.symm
      have hrows2 : ((g0.remove_vehicle pos v).add_vehicle (v.move).pos v.move).rows = g0.rows :=
        (add_vehicle_dims _ _ _).1.trans (remove_vehicle_dims _ _ _).1
      have hcols2 : ((g0.remove_vehicle pos v).add_vehicle (v.move).pos v.move).cols = g0.cols :=
        (add_vehicle_dims _ _ _).2.trans (remove_vehicle_dims _ _ _).2
      have hvidne : ∀ w ∈ rest, w.vid ≠ v.vid := by
        intro w hw hww
        have hnd2 : ((v :: rest).map Vehicle.vid).Nodup := by
          rw [List.map_append] at hnd
          exact hnd.of_append_right
        rw [List.map_cons, List.nodup_cons] at hnd2
        exact hnd2.1 (hww ▸ List.mem_map_of_mem Vehicle.vid hw)
      obtain ⟨ihq, ihq2, ihm, ihrows, ihcols⟩ := ih kept
        ((g0.remove_vehicle pos v).add_vehicle (v.move).pos v.move)
        (moved ++ [v.vid]) (log ++ [⟨pos, d, v.vid, .right, .rightTurn⟩])
        (fun w hw => by rw [hrows2, hcols2]; exact hsane w (List.mem_cons_of_mem _ hw))
        (fun w hw => by
          rw [List.mem_append, List.mem_singleton]
          rintro (hc | hc)
          · exact hmv w (List.mem_cons_of_mem _ hw) hc
          · exact hvidne w hw hc)
        (by
          refine List.Nodup.sublist ?_ hnd
          refine List.Sublist.map Vehicle.vid ?_
          exact List.Sublist.append_left (List.sublist_cons_self _ _) kept)
        (by rw [hg2q, hg1, hremfe, DirQueues.get_set_same])
      refine ⟨?_, ?_, ?_, ?_, ?_⟩
      · rw [ihq]
        have : (v :: rest).filter (fun v => ! isRight v) = rest.filter (fun v => ! isRight v) := by
          rw [List.filter_cons]
          simp [isRight, hr]
        rw [this]
      · intro d2 hne
        rw [ihq2 d2 hne, hg2q, hg1, DirQueues.get_set_ne _ _ _ _ hne]
      · rw [ihm]
        have : (v :: rest).filter isRight = v :: rest.filter isRight := by
          rw [List.filter_cons]
          simp [isRight, hr]
        rw [this, List.map_cons, List.append_assoc, List.singleton_append]
      · rw [ihrows, hrows2]
      · rw [ihcols, hcols2]
    · -- the vehicle stays in place
      have hstep : rightStep pos d (g0, moved, log) v = (g0, moved, log) := by
        unfold rightStep
        dsimp only
        rw [if_neg hskip, if_neg hr]
      rw [hstep]
      obtain ⟨ihq, ihq2, ihm, ihrows, ihcols⟩ := ih (kept ++ [v]) g0 moved log
        (fun w hw => hsane w (List.mem_cons_of_mem _ hw))
        (fun w hw => hmv w (List.mem_cons_of_mem _ hw))
        (by rw [List.append_assoc, List.singleton_append]; exact hnd)
        (by rw [hq, List.append_assoc, List.singleton_append])
      refine ⟨?_, ihq2, ?_, ihrows, ihcols⟩
      · rw [ihq]
        have : (v :: rest).filter (fun v => ! isRight v) = v :: rest.filter (fun v => ! isRight v) := by
          rw [List.filter_cons]
          simp [isRight, hr]
        rw [this, List.append_assoc, List.singleton_append]
      · rw [ihm]
        have : (v :: rest).filter isRight = rest.filter isRight := by
          rw [List.filter_cons]
          simp [isRight, hr]
        rw [this]

/-- The ids of all vehicles queued at an intersection. -/
def vidsAt (g : Grid) (pos : Pos) : List ℕ := (vehiclesAt g pos).map Vehicle.vid

/-- A member of a direction queue is a member of the intersection's
combined vehicle list. -/
theorem mem_vehiclesAt_of_mem_queue (g : Grid) (pos : Pos) (d : QDir) (v : Vehicle)
    (h : v ∈ (g.queues pos).get d) : v ∈ vehiclesAt g pos := by
  cases d <;> simp only [DirQueues.get] at h <;> simp [vehiclesAt, h]

/-- Multi-queue specification of the right-turn pass: folding the
one-queue pass over a duplicate-free list of directions filters every one
of those queues down to its non-right-turn vehicles (in order), leaves
the other queues of the intersection unchanged, and appends exactly the
right-turn vehicles' ids, queue by queue. -/
theorem rightPhase_fold_spec (pos : Pos) :
    ∀ (ds : List QDir), ds.Nodup →
      ∀ (g0 : Grid) (moved : List ℕ) (log : List MoveRec),
      (∀ d ∈ ds, ∀ v ∈ (g0.queues pos).get d, VehicleSane g0.rows g0.cols pos d v) →
      (∀ d ∈ ds, ∀ v ∈ (g0.queues pos).get d, v.vid ∉ moved) →
      ((ds.map fun d => ((g0.queues pos).get d).map Vehicle.vid).flatten).Nodup →
      (∀ d ∈ ds, (((ds.foldl (fun st d => processRightQueue pos d st) (g0, moved, log)).1.queues pos).get d
          = ((g0.queues pos).get d).filter fun v => ! isRight v)) ∧
      (∀ d, d ∉ ds → ((ds.foldl (fun st d => processRightQueue pos d st) (g0, moved, log)).1.queues pos).get d
          = (g0.queues pos).get d) ∧
      ((ds.foldl (fun st d => processRightQueue pos d st) (g0, moved, log)).2.1
          = moved ++ (ds.map fun d =>
              (((g0.queues pos).get d).filter isRight).map Vehicle.vid).flatten) ∧
      ((ds.foldl (fun st d => processRightQueue pos d st) (g0, moved, log)).1.rows = g0.rows ∧
       (ds.foldl (fun st d => processRightQueue pos d st) (g0, moved, log)).1.cols = g0.cols) := by
  intro ds
  induction ds with
  | nil =>
    intro _ g0 moved log _ _ _
    refine ⟨?_, fun d _ => rfl, by simp, rfl, rfl⟩
    intro d hd
    exact absurd hd (List.not_mem_nil d)
  | cons d rest ih =>
    intro hnd g0 moved log hsane hmv hvids
    obtain ⟨hdnotin, hndrest⟩ := List.nodup_cons.mp hnd
    rw [List.map_cons, List.flatten_cons] at hvids
    rw [List.foldl_cons]
    -- the first queue is processed by `rightQueue_fold_spec`
    obtain ⟨hq1, hq1o, hm1, hrows1, hcols1⟩ := rightQueue_fold_spec pos d
      ((g0.queues pos).get d) [] g0 moved log
      (hsane d (List.mem_cons_self _ _))
      (hmv d (List.mem_cons_self _ _))
      (by rw [List.nil_append]; exact hvids.of_append_left)
      (by rw [List.nil_append])
    rw [List.nil_append] at hq1
    have hstep : processRightQueue pos d (g0, moved, log)
        = ((g0.queues pos).get d).foldl (rightStep pos d) (g0, moved, log) := rfl
    set st1 := ((g0.queues pos).get d).foldl (rightStep pos d) (g0, moved, log) with hst1
    -- queues of the remaining directions are unchanged by the first pass
    have hqsame : ∀ d2 ∈ rest, (st1.1.queues pos).get d2 = (g0.queues pos).get d2 := by
      intro d2 hd2
      exact hq1o d2 (fun he => hdnotin (he ▸ hd2))
    have hdisj := List.disjoint_of_nodup_append hvids
    -- recurse on the remaining directions
    obtain ⟨ih1, ih2, ih3, ihrows, ihcols⟩ := ih hndrest st1.1 st1.2.1 st1.2.2
      (fun d2 hd2 v hv => by
        rw [hrows1, hcols1]
        exact hsane d2 (List.mem_cons_of_mem _ hd2) v (by rw [← hqsame d2 hd2]; exact hv))
      (fun d2 hd2 v hv => by
        rw [hm1]
        rw [List.mem_append]
        rintro (hc | hc)
        · exact hmv d2 (List.mem_cons_of_mem _ hd2) v (by rw [← hqsame d2 hd2]; exact hv) hc
        · have hvm : v.vid ∈ ((g0.queues pos).get d).map Vehicle.vid := by
            obtain ⟨w, hw, hwv⟩ := List.mem_map.mp hc
            exact hwv ▸ List.mem_map_of_mem Vehicle.vid (List.mem_of_mem_filter hw)
          have hvm2 : v.vid
              ∈ (rest.map fun d3 => ((g0.queues pos).get d3).map Vehicle.vid).flatten := by
            refine List.mem_flatten.mpr ⟨((g0.queues pos).get d2).map Vehicle.vid, ?_, ?_⟩
            · exact List.mem_map_of_mem _ hd2
            · exact List.mem_map_of_mem Vehicle.vid (by rw [← hqsame d2 hd2]; exact hv)
          exact hdisj hvm hvm2)
      (by
        have hmapeq : rest.map (fun d2 => ((st1.1.queues pos).get d2).map Vehicle.vid)
            = rest.map fun d2 => ((g0.queues pos).get d2).map Vehicle.vid :=
          List.map_congr_left fun d2 hd2 => by rw [hqsame d2 hd2]
        rw [hmapeq]
        exact hvids.of_append_right)
    have hsteta : ((st1.1, st1.2.1, st1.2.2) : MoveState) = st1 := rfl
    rw [hsteta] at ih1 ih2 ih3 ihrows ihcols
    rw [hstep]
    refine ⟨?_, ?_, ?_, ?_, ?_⟩
    · intro d2 hd2
      rcases List.mem_cons.mp hd2 with rfl | hd2r
      · rw [ih2 d2 hdnotin, hq1]
      · rw [ih1 d2 hd2r, hqsame d2 hd2r]
    · intro d2 hd2
      have hd2d : d2 ≠ d := fun he => hd2 (he ▸ List.mem_cons_self _ _)
      have hd2r : d2 ∉ rest := fun hm => hd2 (List.mem_cons_of_mem _ hm)
      rw [ih2 d2 hd2r, hq1o d2 hd2d]
    · have hmapeq : rest.map (fun d2 => (((st1.1.queues pos).get d2).filter isRight).map Vehicle.vid)
          = rest.map fun d2 => (((g0.queues pos).get d2).filter isRight).map Vehicle.vid :=
        List.map_congr_left fun d2 hd2 => by rw [hqsame d2 hd2]
      rw [ih3, hmapeq, hm1, List.map_cons, List.flatten_cons, List.append_assoc]
    · rw [ihrows, hrows1]
    · rw [ihcols, hcols1]

/-- C4: during the right-turn pass of an intersection (in any sane
state), EVERY vehicle at any position in any of the four direction queues
whose turn type is "right" is advanced (its id enters the moved set) and
removed from the intersection's queues — not only queue heads; each queue
is left with exactly its non-right-turn vehicles in their original
relative order.  The pass never reads the traffic light, so this holds
whatever the light's phase is (the grid's lights are universally
quantified and the conclusion does not depend on them). -/
theorem right_pass_moves_every_right_turner (g : Grid) (moved : List ℕ)
    (log : List MoveRec) (pos : Pos)
    (hsane : ∀ d : QDir, ∀ v ∈ (g.queues pos).get d, VehicleSane g.rows g.cols pos d v)
    (hmv : ∀ d : QDir, ∀ v ∈ (g.queues pos).get d, v.vid ∉ moved)
    (hnd : (vidsAt g pos).Nodup) :
    (∀ d : QDir, ((processRightPhase pos (g, moved, log)).1.queues pos).get d
        = ((g.queues pos).get d).filter fun v => ! isRight v) ∧
    (∀ d : QDir, ∀ v ∈ (g.queues pos).get d, v.get_turn_type = .right →
      v.vid ∈ (processRightPhase pos (g, moved, log)).2.1 ∧
      ∀ d2 : QDir,
        v.vid ∉ (((processRightPhase pos (g, moved, log)).1.queues pos).get d2).map Vehicle.vid) := by
  have hflat : ((qdirs.map fun d => ((g.queues pos).get d).map Vehicle.vid).flatten).Nodup := by
    have : (qdirs.map fun d => ((g.queues pos).get d).map Vehicle.vid).flatten
        = vidsAt g pos := by
      simp [qdirs, vidsAt, vehiclesAt, DirQueues.get]
    rw [this]
    exact hnd
  obtain ⟨h1, h2, h3, _, _⟩ := rightPhase_fold_spec pos qdirs (by decide) g moved log
    (fun d _ => hsane d) (fun d _ => hmv d) hflat
  have hinj := List.inj_on_of_nodup_map hnd
  unfold processRightPhase
  constructor
  · intro d
    exact h1 d (by cases d <;> decide)
  · intro d v hv hr
    constructor
    · rw [h3, List.mem_append]
      right
      refine List.mem_flatten.mpr ⟨(((g.queues pos).get d).filter isRight).map Vehicle.vid, ?_, ?_⟩
      · exact List.mem_map_of_mem _ (by cases d <;> decide)
      · refine List.mem_map_of_mem Vehicle.vid ?_
        rw [List.mem_filter]
        exact ⟨hv, by simp [isRight, hr]⟩
    · intro d2 hcontra
      rw [h1 d2 (by cases d2 <;> decide)] at hcontra
      obtain ⟨w, hw, hwv⟩ := List.mem_map.mp hcontra
      rw [List.mem_filter] at hw
      have hveq : w = v := hinj
        (mem_vehiclesAt_of_mem_queue g pos d2 w hw.1)
        (mem_vehiclesAt_of_mem_queue g pos d v hv) hwv
      rw [hveq] at hw
      simp [isRight, hr] at hw

/-- The green scan of a non-empty queue whose head is eligible (unmoved,
not arrived) and not a right-turner advances exactly the head. -/
theorem greenScan_cons_moves (pos : Pos) (d : QDir) (g0 : Grid) (moved : List ℕ)
    (v : Vehicle) (rest : List Vehicle)
    (hnm : v.vid ∉ moved) (hnr : v.has_reached_destination = false)
    (hnright : ¬ v.get_turn_type = .right) :
    (greenScan pos d g0 moved (v :: rest)).2.2
      = some ⟨pos, d, v.vid, v.get_turn_type, .greenPhase⟩ := by
  have hsl : v.get_turn_type = .straight ∨ v.get_turn_type = .left := by
    cases hvt : v.get_turn_type
    · exact .inl rfl
    · exact .inr rfl
    · exact absurd hvt hnright
  rw [greenScan, if_neg (by simp [hnm, hnr]), if_pos hsl]

/-- The straight/left pass advances at most the head of one of the two
green queues: when all queued vehicles are eligible (unmoved, not
arrived) and none is a right-turner, a recorded advance is the head of
the queue it names, with a straight-or-left turn type. -/
theorem processGreenPhase_head (pos : Pos) (g0 : Grid) (moved : List ℕ)
    (helig : ∀ d : QDir, ∀ v ∈ (g0.queues pos).get d,
        v.vid ∉ moved ∧ v.has_reached_destination = false ∧ ¬ v.get_turn_type = .right)
    (r : MoveRec) (h : (processGreenPhase pos g0 moved).2.2 = some r) :
    ∃ v rest, (g0.queues pos).get r.dir = v :: rest ∧ r.vid = v.vid ∧
      r.turn = v.get_turn_type ∧
      (v.get_turn_type = .straight ∨ v.get_turn_type = .left) := by
  unfold processGreenPhase at h
  obtain ⟨da, db, hgd⟩ : ∃ da db, greenDirections (g0.lights pos) = [da, db] := by
    unfold greenDirections
    split
    · exact ⟨.east, .west, rfl⟩
    · exact ⟨.north, .south, rfl⟩
  rw [hgd, List.foldl_cons, List.foldl_cons, List.foldl_nil] at h
  have hstep1 : greenStep pos (g0, moved, none) da
      = greenScan pos da g0 moved ((g0.queues pos).get da) := by
    unfold greenStep
    rw [if_neg (by simp)]
  rw [hstep1] at h
  cases hqa : (g0.queues pos).get da with
  | nil =>
    rw [hqa] at h
    have hnil : greenScan pos da g0 moved [] = (g0, moved, none) := rfl
    rw [hnil] at h
    have hstep2 : greenStep pos (g0, moved, none) db
        = greenScan pos db g0 moved ((g0.queues pos).get db) := by
      unfold greenStep
      rw [if_neg (by simp)]
    rw [hstep2] at h
    cases hqb : (g0.queues pos).get db with
    | nil =>
      rw [hqb] at h
      cases h
    | cons v rest =>
      rw [hqb] at h
      obtain ⟨hnm, hnr, hnright⟩ := helig db v (by rw [hqb]; exact List.mem_cons_self _ _)
      rw [greenScan_cons_moves pos db g0 moved v rest hnm hnr hnright] at h
      cases h
      have hsl : v.get_turn_type = .straight ∨ v.get_turn_type = .left := by
        cases hvt : v.get_turn_type
        · exact .inl rfl
        · exact .inr rfl
        · exact absurd hvt hnright
      exact ⟨v, rest, hqb, rfl, rfl, hsl⟩
  | cons v rest =>
    rw [hqa] at h
    obtain ⟨hnm, hnr, hnright⟩ := helig da v (by rw [hqa]; exact List.mem_cons_self _ _)
    have hscan := greenScan_cons_moves pos da g0 moved v rest hnm hnr hnright
    have hskip : greenStep pos (greenScan pos da g0 moved (v :: rest)) db
        = greenScan pos da g0 moved (v :: rest) := by
      unfold greenStep
      rw [if_pos (by rw [hscan]; rfl)]
    rw [hskip, hscan] at h
    cases h
    have hsl : v.get_turn_type = .straight ∨ v.get_turn_type = .left := by
      cases hvt : v.get_turn_type
      · exact .inl rfl
      · exact .inr rfl
      · exact absurd hvt hnright
    exact ⟨v, rest, hqa, rfl, rfl, hsl⟩

/-- C5: in the straight/left pass of an intersection (in any sane state,
running — as in `move_vehicles` — right after that intersection's
right-turn pass), a vehicle advances from a green queue only if it is the
FIRST element of that queue as the pass sees it, and its turn type is
straight or left; consequently a straight/left vehicle that is not at the
head of its queue never advances in this pass. -/
theorem green_pass_moves_only_queue_head (g : Grid) (moved : List ℕ)
    (log : List MoveRec) (pos : Pos)
    (hsane : ∀ d : QDir, ∀ v ∈ (g.queues pos).get d, VehicleSane g.rows g.cols pos d v)
    (hmv : ∀ d : QDir, ∀ v ∈ (g.queues pos).get d, v.vid ∉ moved)
    (hnd : (vidsAt g pos).Nodup) (r : MoveRec)
    (h : (processGreenPhase pos (processRightPhase pos (g, moved, log)).1
            (processRightPhase pos (g, moved, log)).2.1).2.2 = some r) :
    ∃ v rest,
      (((processRightPhase pos (g, moved, log)).1.queues pos).get r.dir) = v :: rest ∧
      r.vid = v.vid ∧ (v.get_turn_type = .straight ∨ v.get_turn_type = .left) := by
  have hflat : ((qdirs.map fun d => ((g.queues pos).get d).map Vehicle.vid).flatten).Nodup := by
    have heq : (qdirs.map fun d => ((g.queues pos).get d).map Vehicle.vid).flatten
        = vidsAt g pos := by
      simp [qdirs, vidsAt, vehiclesAt, DirQueues.get]
    rw [heq]
    exact hnd
  obtain ⟨h1, _, h3, _, _⟩ := rightPhase_fold_spec pos qdirs (by decide) g moved log
    (fun d _ => hsane d) (fun d _ => hmv d) hflat
  have hinj := List.inj_on_of_nodup_map hnd
  have hrp : processRightPhase pos (g, moved, log)
      = qdirs.foldl (fun st d => processRightQueue pos d st) (g, moved, log) := rfl
  rw [hrp] at h ⊢
  have helig : ∀ d : QDir,
      ∀ v ∈ ((qdirs.foldl (fun st d => processRightQueue pos d st) (g, moved, log)).1.queues pos).get d,
        v.vid ∉ (qdirs.foldl (fun st d => processRightQueue pos d st) (g, moved, log)).2.1 ∧
        v.has_reached_destination = false ∧ ¬ v.get_turn_type = .right := by
    intro d v hv
    rw [h1 d (by cases d <;> decide)] at hv
    rw [List.mem_filter] at hv
    obtain ⟨hvq, hvnr⟩ := hv
    have hnotright : ¬ v.get_turn_type = .right := by
      simpa [isRight] using hvnr
    refine ⟨?_, (hsane d v hvq).2.1, hnotright⟩
    rw [h3, List.mem_append]
    rintro (hc | hc)
    · exact hmv d v hvq hc
    · obtain ⟨vl, hvl, hvmem⟩ := List.mem_flatten.mp hc
      obtain ⟨d2, hd2, hvl2⟩ := List.mem_map.mp hvl
      rw [← hvl2] at hvmem
      obtain ⟨w, hw, hwv⟩ := List.mem_map.mp hvmem
      rw [List.mem_filter] at hw
      have hveq : w = v := hinj
        (mem_vehiclesAt_of_mem_queue g pos d2 w hw.1)
        (mem_vehiclesAt_of_mem_queue g pos d v hvq) hwv
      rw [hveq] at hw
      exact hnotright (by simpa [isRight] using hw.2)
  obtain ⟨v, rest, hvr, hvid, _, hsl⟩ := processGreenPhase_head pos _ _ helig r h
  exact ⟨v, rest, hvr, hvid, hsl⟩

/-- A right-turning vehicle for the C4 witness (mid-journey state: turn
south, then east — a right turn). -/
def c4vehA : Vehicle :=
  { vid := 11, pos := (0, 0), dest := (1, 1), gridSize := (5, 5)
    path := [(0, 0), (1, 0), (1, 1)], idx := 0, steps := 0, distance := 0
    waiting := [((0, 0), 0), ((1, 0), 0), ((1, 1), 0)], pathHistory := [], lastMove := 0 }

/-- A straight-driving vehicle queued behind it. -/
def c4vehB : Vehicle :=
  { vid := 12, pos := (0, 0), dest := (2, 0), gridSize := (5, 5)
    path := [(0, 0), (1, 0), (2, 0)], idx := 0, steps := 0, distance := 0
    waiting := [((0, 0), 0), ((1, 0), 0), ((2, 0), 0)], pathHistory := [], lastMove := 0 }

/-- A second right-turning vehicle at the back of the same queue. -/
def c4vehC : Vehicle :=
  { vid := 13, pos := (0, 0), dest := (1, 1), gridSize := (5, 5)
    path := [(0, 0), (1, 0), (1, 1)], idx := 0, steps := 0, distance := 0
    waiting := [((0, 0), 0), ((1, 0), 0), ((1, 1), 0)], pathHistory := [], lastMove := 0 }

/-- 5×5 witness grid for C4: the South queue of `(0,0)` holds
`[right, straight, right]`. -/
def c4grid : Grid :=
  (((Grid.init 5 5).add_vehicle (0, 0) c4vehA).add_vehicle (0, 0) c4vehB).add_vehicle
    (0, 0) c4vehC

set_option maxRecDepth 10000 in
/-- Witness for C4: in the concrete queue `[right, straight, right]` both
right-turners — head and non-head alike — are advanced and removed by the
right pass, leaving only the straight vehicle. -/
theorem right_pass_witness :
    c4vehA ∈ (c4grid.queues (0, 0)).get .south ∧ c4vehA.get_turn_type = .right ∧
    c4vehC ∈ (c4grid.queues (0, 0)).get .south ∧ c4vehC.get_turn_type = .right ∧
    (c4vehA.vid ∈ (processRightPhase (0, 0) (c4grid, [], [])).2.1 ∧
      ∀ d2 : QDir, c4vehA.vid
        ∉ (((processRightPhase (0, 0) (c4grid, [], [])).1.queues (0, 0)).get d2).map Vehicle.vid) ∧
    (c4vehC.vid ∈ (processRightPhase (0, 0) (c4grid, [], [])).2.1 ∧
      ∀ d2 : QDir, c4vehC.vid
        ∉ (((processRightPhase (0, 0) (c4grid, [], [])).1.queues (0, 0)).get d2).map Vehicle.vid) ∧
    (∀ d : QDir, ((processRightPhase (0, 0) (c4grid, [], [])).1.queues (0, 0)).get d
        = ((c4grid.queues (0, 0)).get d).filter fun v => ! isRight v) := by
  have H := right_pass_moves_every_right_turner c4grid [] [] (0, 0)
    (by intro d; cases d <;> decide) (by intro d; cases d <;> decide) (by decide)
  exact ⟨by decide, by decide, by decide, by decide,
    H.2 .south c4vehA (by decide) (by decide),
    H.2 .south c4vehC (by decide) (by decide),
    H.1⟩

set_option maxRecDepth 10000 in
/-- Witness for C5 on the demo grid: the green pass records exactly one
advance, and the theorem identifies the advanced vehicle as the head of
the East queue the pass saw. -/
theorem green_pass_head_witness :
    (processGreenPhase (0, 0) (processRightPhase (0, 0) (demoGrid, [], [])).1
        (processRightPhase (0, 0) (demoGrid, [], [])).2.1).2.2
      = some ⟨(0, 0), .east, 7, .straight, .greenPhase⟩ ∧
    ∃ v rest,
      (((processRightPhase (0, 0) (demoGrid, [], [])).1.queues (0, 0)).get .east) = v :: rest ∧
      (7 : ℕ) = v.vid ∧ (v.get_turn_type = .straight ∨ v.get_turn_type = .left) :=
  ⟨by decide,
   green_pass_moves_only_queue_head demoGrid [] [] (0, 0)
     (by intro d; cases d <;> decide) (by intro d; cases d <;> decide) (by decide)
     ⟨(0, 0), .east, 7, .straight, .greenPhase⟩ (by decide)⟩

end TrafficSim
